import Mathlib

/-!
Verification development for the overload-generator of SeerAPI/seerapi-python
(`scripts/generate_overload/generate_overloads.py`).

Python strings are embedded as `List Char`, Python's `ast` expression nodes
that the generator builds as the inductive `PyExpr`, and the fallible parts
of the code (which can raise `IndexError`) as `Option`-valued functions.
All definitions are translated from the source file; helpers modelling
behaviour of the Python standard library (`str.strip`, `str.rstrip`,
`str.split`, `ast.unparse`, `str(...)`) carry a doc comment saying so.
-/

/-- Characters treated as whitespace by Python's `str.strip()` (ASCII part;
identifiers and type names in this development never contain the non-ASCII
whitespace characters). -/
def isPySpace (c : Char) : Bool :=
  c = ' ' ∨ c = '\t' ∨ c = '\n' ∨ c = '\r' ∨ c = '\x0b' ∨ c = '\x0c'

/-- Models Python's `str.strip()`: drop whitespace from both ends. -/
def pyStrip (l : List Char) : List Char :=
  ((l.dropWhile isPySpace).reverse.dropWhile isPySpace).reverse

/-- Models Python's `str.rstrip(']')`: drop every trailing `]`. -/
def rstripBr (l : List Char) : List Char :=
  (l.reverse.dropWhile (fun c => c = ']')).reverse

/-- Models `s.split('[', 1)` on a string that contains `'['` (the generator
only calls it under that guard): the part before the first `[` and the part
after it. -/
def splitFirstBr : List Char → List Char × List Char
  | [] => ([], [])
  | c :: rest =>
    if c = '[' then ([], rest)
    else
      let p := splitFirstBr rest
      (c :: p.1, p.2)

/-- The top-level comma splitter of `_create_type_annotation` (the
`for char in args` loop, lines 72-88 of the source): scan the generic
argument blob keeping a bracket depth counter, flush `current` (stripped) at
every comma seen at depth 0, and flush a trailing nonempty `current` at the
end.  Depth is an integer, exactly as in Python, so it can go negative on
unbalanced input. -/
def splitArgs : List Char → Int → List Char → List (List Char) → List (List Char)
  | [], _, current, acc => if current.isEmpty then acc else acc ++ [pyStrip current]
  | c :: rest, depth, current, acc =>
    if c = '[' then splitArgs rest (depth + 1) (current ++ [c]) acc
    else if c = ']' then splitArgs rest (depth - 1) (current ++ [c]) acc
    else if c = ',' ∧ depth = 0 then splitArgs rest depth [] (acc ++ [pyStrip current])
    else splitArgs rest depth (current ++ [c]) acc

/-- Python constants as they appear in the generated trees: string literal,
integer literal, `...` (Ellipsis). -/
inductive PyConst where
  | str (s : List Char)
  | int (n : Int)
  | ellipsis

/-- The fragment of Python `ast` expressions the generator builds.
`name id` is `ast.Name(id)`; `subSingle base a` is
`ast.Subscript(value=Name(base), slice=a)` with a non-tuple slice;
`subTuple base elts` is `ast.Subscript(value=Name(base), slice=Tuple(elts))`;
`const c` is `ast.Constant(c)`. -/
inductive PyExpr where
  | name (id : List Char)
  | subSingle (base : List Char) (slice : PyExpr)
  | subTuple (base : List Char) (elts : List PyExpr)
  | const (c : PyConst)

/-- Sequence a fallible function over a list, failing on the first failure:
the model of a Python list comprehension whose body can raise. -/
def mapMO (f : α → Option β) : List α → Option (List β)
  | [] => some []
  | a :: as =>
    match f a with
    | none => none
    | some b => (mapMO f as).map (fun bs => b :: bs)

/-- Fuel-indexed translation of `OverloadGenerator._create_type_annotation`
(source lines 57-100).  `none` models an uncaught `IndexError`: when the
bracket content is empty after `rstrip(']')`, `arg_list` is empty and the
source evaluates `arg_list[0]`.  The fuel only bounds the recursion depth;
`parseFuel_irrel` below shows that with fuel larger than the input length
(as used in `createTypeAnn`) the fuel never runs out, so `none` means
exactly the `IndexError`. -/
def parseFuel : Nat → List Char → Option PyExpr
  | 0, _ => none
  | fuel + 1, s =>
    if '[' ∈ s then
      let p := splitFirstBr s
      let args := rstripBr p.2
      let argList := splitArgs args 0 [] []
      match argList with
      | [] => none
      | [a] => (parseFuel fuel a).map (fun e => .subSingle (pyStrip p.1) e)
      | _ :: _ :: _ => (mapMO (parseFuel fuel) argList).map (fun es => .subTuple (pyStrip p.1) es)
    else
      some (.name (pyStrip s))

/-- The type-expression parser `_create_type_annotation`, with enough fuel
for its (length-decreasing) recursion. -/
def createTypeAnn (s : List Char) : Option PyExpr :=
  parseFuel (s.length + 1) s

example : createTypeAnn "int".data = some (.name "int".data) := rfl

example : createTypeAnn "dict[str, Any]".data =
    some (.subTuple "dict".data [.name "str".data, .name "Any".data]) := rfl

example : createTypeAnn "Map[String, List[Int]]".data =
    some (.subTuple "Map".data
      [.name "String".data, .subSingle "List".data (.name "Int".data)]) := rfl

example : createTypeAnn "list[]".data = none := rfl

example : createTypeAnn "a[b[]]".data = none := rfl

/-- Join string pieces with a separator; models Python's `sep.join(...)` and
the separators `ast.unparse` prints between tuple elements, parameters and
top-level declarations. -/
def joinSep (sep : List Char) : List (List Char) → List Char
  | [] => []
  | [x] => x
  | x :: xs => x ++ sep ++ joinSep sep xs

/-- Comma-space join, as `ast.unparse` prints tuple elements and parameter
lists. -/
def commaJoin : List (List Char) → List Char :=
  joinSep (',' :: ' ' :: [])

/-- The single-quote character, written via its code point. -/
def quoteChar : Char := Char.ofNat 39

mutual

/-- Serialization of the expression fragment, modelling the part of Python's
`ast.unparse` exercised by the generator: a bare name prints as itself, a
subscript as `base[slice]` (a tuple slice prints comma-separated without
parentheses), a string constant with quotes, `Ellipsis` as `...`. -/
def unparseE : PyExpr → List Char
  | .name id => id
  | .subSingle b a => b ++ '[' :: (unparseE a ++ [']'])
  | .subTuple b as => b ++ '[' :: (commaJoin (unparseL as) ++ [']'])
  | .const (.str s) => quoteChar :: (s ++ [quoteChar])
  | .const (.int n) => (toString n).data
  | .const .ellipsis => '.' :: '.' :: '.' :: []

def unparseL : List PyExpr → List (List Char)
  | [] => []
  | e :: es => unparseE e :: unparseL es

end

/-- Characters allowed in the identifiers of a well-formed type node: no
brackets, no comma, no whitespace. -/
def identChar (c : Char) : Bool :=
  ¬(c = '[' ∨ c = ']' ∨ c = ',' ∨ isPySpace c)

/-- A nonempty identifier made of `identChar`s. -/
def identOk (l : List Char) : Bool :=
  !l.isEmpty && l.all identChar

mutual

/-- Well-formed type-expression trees, the `TypeNode`s of the specification:
every base (and leaf name) is a nonempty identifier free of brackets, commas
and whitespace, and a tuple slice has at least two elements (the shapes
`_create_type_annotation` itself produces; a node with one argument uses a
plain slice, one with several uses a tuple slice). -/
def wfE : PyExpr → Bool
  | .name id => identOk id
  | .subSingle b a => identOk b && wfE a
  | .subTuple b as => identOk b && decide (2 ≤ as.length) && wfL as
  | .const _ => false

def wfL : List PyExpr → Bool
  | [] => true
  | e :: es => wfE e && wfL es

end

/-- A mapping key, together with its Python `str(...)` form: the generator
applies `str` to every key before building the `Literal` annotation. -/
inductive MapKey where
  | strKey (s : List Char)
  | intKey (n : Int)
  | otherKey (strForm : List Char)

/-- Models Python's `str(key)`. -/
def keyStr : MapKey → List Char
  | .strKey s => s
  | .intKey n => (toString n).data
  | .otherKey sf => sf

/-- A mapping value (`ReturnTypeSpec`): a class (type reference, carrying its
`__name__` and its `str(...)` form), a plain string, or anything else (only
its `str(...)` form is observable). -/
inductive MapValue where
  | typeRef (name : List Char) (strForm : List Char)
  | strVal (s : List Char)
  | other (strForm : List Char)

/-- Models Python's `str(value)` on a mapping value. -/
def pyStr : MapValue → List Char
  | .typeRef _ sf => sf
  | .strVal s => s
  | .other sf => sf

/-- The constructor arguments of `OverloadGenerator` (source lines 25-55).
The mapping is an ordered association list: Python dicts iterate in
insertion order. -/
structure GenConfig where
  function_name : List Char
  mapping : List (MapKey × MapValue)
  key_param : List Char
  additional_params : List (List Char × List Char)
  is_async : Bool
  has_self : Bool
  return_type_from_mapping : Bool
  return_type_fallback : List Char

/-- One entry of `ast.arguments.args`: parameter name and optional
annotation (field `annotation` in the source, abbreviated here). -/
structure PyArg where
  arg : List Char
  ann : Option PyExpr

/-- The statements the generator places in function bodies: an expression
statement (`ast.Expr`), or the caller-supplied implementation body. `raw`
models stdlib `ast.parse` applied to that text as an opaque statement
sequence; no claim inspects its internal structure. -/
inductive PyStmt where
  | exprStmt (e : PyExpr)
  | raw (code : List Char)

/-- An `ast.FunctionDef` / `ast.AsyncFunctionDef` as the generator builds
them (`posonlyargs`, `kwonlyargs`, `kw_defaults` and `defaults` are always
empty and are omitted). -/
structure PyFunctionDef where
  isAsync : Bool
  name : List Char
  args : List PyArg
  body : List PyStmt
  decorator_list : List PyExpr
  returns : PyExpr

/-- Translation of `_create_literal_annotation` (source lines 102-106):
`Literal[value]` with the value as a string constant. -/
def createLiteralAnn (value : List Char) : PyExpr :=
  .subSingle "Literal".data (.const (.str value))

/-- The key parameter's annotation in `_create_arguments` (source lines
121-124): `Literal[literal_value]` when a literal is supplied, the plain
name `str` otherwise. -/
def keyAnnOf : Option (List Char) → PyExpr
  | some v => createLiteralAnn v
  | none => .name "str".data

/-- Translation of `_create_arguments` (source lines 108-138): optional
`self` (untyped), then the key parameter annotated via `keyAnnOf`, then the
additional parameters with their type strings parsed by
`_create_type_annotation` (which can fail). -/
def createArguments (cfg : GenConfig) (literal_value : Option (List Char)) : Option (List PyArg) :=
  let args0 : List PyArg := if cfg.has_self then [⟨"self".data, none⟩] else []
  (mapMO (fun p => (createTypeAnn p.2).map (fun t => PyArg.mk p.1 (some t)))
      cfg.additional_params).map
    (fun addl => args0 ++ ⟨cfg.key_param, some (keyAnnOf literal_value)⟩ :: addl)

/-- Translation of `_get_return_type_name` (source lines 140-150). -/
def getReturnTypeName (cfg : GenConfig) (value : MapValue) : List Char :=
  if ¬cfg.return_type_from_mapping then pyStr value
  else
    match value with
    | .typeRef n _ => n
    | .strVal s => s
    | .other _ => cfg.return_type_fallback

/-- Translation of `_create_overload_function` (source lines 152-164): an
`@overload`-decorated signature with a `...` body. -/
def createOverloadFunction (cfg : GenConfig) (key : List Char)
    (return_type_name : List Char) : Option PyFunctionDef :=
  match createArguments cfg (some key), createTypeAnn return_type_name with
  | some args, some ret =>
    some ⟨cfg.is_async, cfg.function_name, args,
      [.exprStmt (.const .ellipsis)], [.name "overload".data], ret⟩
  | _, _ => none

/-- Models stdlib `ast.parse` on the caller-supplied implementation body:
an opaque statement sequence (its internal structure is irrelevant to every
claim). -/
def pyParseStmts (code : List Char) : List PyStmt :=
  [.raw code]

/-- Translation of `_create_implementation_function` (source lines 166-187):
no decorator, key parameter typed `str`, return type parsed from the
fallback name; the body is the parsed `body_code` when that is supplied and
nonempty (Python's `if body_code:` is false for the empty string), otherwise
the `...` placeholder. -/
def createImplementationFunction (cfg : GenConfig)
    (body_code : Option (List Char)) : Option PyFunctionDef :=
  let body : List PyStmt :=
    match body_code with
    | some bc => if bc.isEmpty then [.exprStmt (.const .ellipsis)] else pyParseStmts bc
    | none => [.exprStmt (.const .ellipsis)]
  match createArguments cfg none, createTypeAnn cfg.return_type_fallback with
  | some args, some ret =>
    some ⟨cfg.is_async, cfg.function_name, args, body, [], ret⟩
  | _, _ => none

/-- Translation of the body of `generate` up to the `ast.Module` it builds
(source lines 203-217): one overload per mapping entry, in mapping order,
with the key coerced by `str(...)`; optionally the implementation appended.
The result is the list of declarations in the module body
(`ast.fix_missing_locations` only fills source positions and has no
counterpart here). -/
def generateModule (cfg : GenConfig) (include_implementation : Bool)
    (implementation_body : Option (List Char)) : Option (List PyFunctionDef) :=
  match mapMO (fun kv => createOverloadFunction cfg (keyStr kv.1)
      (getReturnTypeName cfg kv.2)) cfg.mapping with
  | none => none
  | some functions =>
    if include_implementation then
      match createImplementationFunction cfg implementation_body with
      | none => none
      | some impl => some (functions ++ [impl])
    else
      some functions

/-- Serialization of one parameter, as `ast.unparse` prints it. -/
def unparseArg (a : PyArg) : List Char :=
  a.arg ++
    (match a.ann with
     | some t => ':' :: ' ' :: unparseE t
     | none => [])

/-- Serialization of one statement at function-body indentation (for `raw`
bodies this is approximate — multi-line bodies are not re-indented — and no
claim depends on it). -/
def unparseStmt : PyStmt → List Char
  | .exprStmt e => unparseE e
  | .raw code => code

/-- Serialization of one function declaration, modelling `ast.unparse`:
decorators each on their own line, `def`/`async def` header, parameters
comma-joined, ` -> ` return annotation, body lines indented four spaces. -/
def unparseDef (f : PyFunctionDef) : List Char :=
  (f.decorator_list.map (fun d => '@' :: (unparseE d ++ ['\n']))).flatten ++
  (if f.isAsync then "async def ".data else "def ".data) ++ f.name ++
  '(' :: (commaJoin (f.args.map unparseArg) ++ [')']) ++
  (' ' :: '-' :: '>' :: ' ' :: unparseE f.returns) ++ [':'] ++
  (f.body.map (fun st => '\n' :: ' ' :: ' ' :: ' ' :: ' ' :: unparseStmt st)).flatten

/-- Serialization of the module body: `ast.unparse` separates consecutive
top-level declarations by one blank line. -/
def unparseModule (fs : List PyFunctionDef) : List Char :=
  joinSep ('\n' :: '\n' :: []) (fs.map unparseDef)

/-- Translation of `generate` (source lines 189-225): build the module and
unparse it. -/
def generate (cfg : GenConfig) (include_implementation : Bool)
    (implementation_body : Option (List Char)) : Option (List Char) :=
  (generateModule cfg include_implementation implementation_body).map unparseModule

/-- The baseline import line of `generate_with_imports`. -/
def baselineImport : List Char :=
  "from typing import overload, Literal".data

/-- Translation of `generate_with_imports` (source lines 227-250):
`'\n'.join(imports) + '\n\n\n' + code` where `imports` is the
baseline import followed by the caller's extra imports (a `None`
argument is the empty list: `if extra_imports:` skips both). -/
def generateWithImports (cfg : GenConfig) (include_implementation : Bool)
    (implementation_body : Option (List Char))
    (extra_imports : List (List Char)) : Option (List Char) :=
  let imports := baselineImport :: extra_imports
  (generate cfg include_implementation implementation_body).map
    (fun code => joinSep ['\n'] imports ++ '\n' :: '\n' :: '\n' :: code)

/-- The state of `ClassMethodOverloadGenerator` after `__init__`. -/
structure ClassMethodGen where
  class_name : List Char
  cfg : GenConfig

/-- Translation of `ClassMethodOverloadGenerator.__init__` (source lines
256-266): it forwards everything to the parent and then unconditionally sets
`has_self = True`. -/
def classMethodInit (class_name : List Char) (cfg : GenConfig) : ClassMethodGen :=
  ⟨class_name, { cfg with has_self := true }⟩

/-- The method list built by `generate_class` (source lines 284-294): the
loop is duplicated verbatim from `generate`, so it is modelled by the same
function (the surrounding `ast.ClassDef` wrapper and optional docstring do
not alter the methods). -/
def generateClassMethods (g : ClassMethodGen) (include_implementation : Bool)
    (implementation_body : Option (List Char)) : Option (List PyFunctionDef) :=
  generateModule g.cfg include_implementation implementation_body

/-- Number of opening brackets in a string, as an integer (the scanner's
depth increments). -/
def opensC : List Char → Int
  | [] => 0
  | c :: l => (if c = '[' then 1 else 0) + opensC l

/-- Number of closing brackets in a string, as an integer (the scanner's
depth decrements). -/
def closesC : List Char → Int
  | [] => 0
  | c :: l => (if c = ']' then 1 else 0) + closesC l

/-- Every prefix closes at most as many brackets as it opens. -/
def PrefOk (l : List Char) : Prop :=
  ∀ p q, l = p ++ q → closesC p ≤ opensC p

/-- Every comma of the string sits strictly inside a bracket. -/
def ComDeep (l : List Char) : Prop :=
  ∀ p q, l = p ++ ',' :: q → closesC p < opensC p

/-- Equally many opening and closing brackets. -/
def Bal (l : List Char) : Prop :=
  opensC l = closesC l

/-- The comma-space join of a list of segments in front of a final segment:
the shape of a tuple-slice serialization whose trailing brackets have been
stripped. -/
def tailJoin : List (List Char) → List Char → List Char
  | [], v => v
  | u :: us, v => u ++ ',' :: ' ' :: tailJoin us v

/-- Example configuration: one string key, simple value, no receiver. -/
def exCfg1 : GenConfig :=
  ⟨"f".data, [(.strKey "a".data, .strVal "int".data)], "x".data, [],
   false, false, true, "Any".data⟩

/-- The overload declaration `generate` builds for `exCfg1`. -/
def exOverload1 : PyFunctionDef :=
  ⟨false, "f".data,
   [⟨"x".data, some (.subSingle "Literal".data (.const (.str "a".data)))⟩],
   [.exprStmt (.const .ellipsis)], [.name "overload".data], .name "int".data⟩

/-- The implementation declaration `generate` builds for `exCfg1`. -/
def exImpl1 : PyFunctionDef :=
  ⟨false, "f".data, [⟨"x".data, some (.name "str".data)⟩],
   [.exprStmt (.const .ellipsis)], [], .name "Any".data⟩

/-- A configuration whose single mapping value is a malformed type string:
`_create_type_annotation('x[]')` raises `IndexError`, so generation fails. -/
def badValueCfg : GenConfig :=
  ⟨"f".data, [(.strKey "a".data, .strVal "x[]".data)], "k".data, [],
   false, false, true, "Any".data⟩

/-- The configuration of the end-to-end scenario claim, parameterized by the
function name: mapping `{'json': 'dict[str, Any]', 'xml': 'str'}`, key
parameter `format`, one additional parameter `('data', 'bytes')`, non-async,
no receiver, return-type resolution disabled. -/
def scnCfg (fname : List Char) : GenConfig :=
  ⟨fname,
   [(.strKey "json".data, .strVal "dict[str, Any]".data),
    (.strKey "xml".data, .strVal "str".data)],
   "format".data, [("data".data, "bytes".data)], false, false, false, "Any".data⟩

/-- The first declaration of the scenario: `format` narrowed to `'json'`,
returning `dict[str, Any]`. -/
def scnJson (fname : List Char) : PyFunctionDef :=
  ⟨false, fname,
   [⟨"format".data, some (.subSingle "Literal".data (.const (.str "json".data)))⟩,
    ⟨"data".data, some (.name "bytes".data)⟩],
   [.exprStmt (.const .ellipsis)], [.name "overload".data],
   .subTuple "dict".data [.name "str".data, .name "Any".data]⟩

/-- The second declaration of the scenario: `format` narrowed to `'xml'`,
returning `str`. -/
def scnXml (fname : List Char) : PyFunctionDef :=
  ⟨false, fname,
   [⟨"format".data, some (.subSingle "Literal".data (.const (.str "xml".data)))⟩,
    ⟨"data".data, some (.name "bytes".data)⟩],
   [.exprStmt (.const .ellipsis)], [.name "overload".data], .name "str".data⟩

/-- Order-determinism example: keys `a`, `b`, `c` in that insertion order. -/
def ordCfg : GenConfig :=
  ⟨"g".data,
   [(.strKey "a".data, .strVal "int".data),
    (.strKey "b".data, .strVal "int".data),
    (.strKey "c".data, .strVal "int".data)],
   "k".data, [], false, false, true, "Any".data⟩

/-- The overload narrowed to one literal key, as generated for `ordCfg`. -/
def ordFun (key : List Char) : PyFunctionDef :=
  ⟨false, "g".data,
   [⟨"k".data, some (.subSingle "Literal".data (.const (.str key)))⟩],
   [.exprStmt (.const .ellipsis)], [.name "overload".data], .name "int".data⟩

/-- The overload built for the fallback-policy witness (value neither a type
reference nor a string, so the return type is the fallback `Any`). -/
def fbFun : PyFunctionDef :=
  ⟨false, "f".data,
   [⟨"x".data, some (.subSingle "Literal".data (.const (.str "a".data)))⟩],
   [.exprStmt (.const .ellipsis)], [.name "overload".data], .name "Any".data⟩

/-- Configuration with an integer mapping key. -/
def intKeyCfg : GenConfig :=
  ⟨"f".data, [(.intKey 3, .strVal "int".data)], "k".data, [],
   false, false, true, "Any".data⟩

/-- The overload generated for `intKeyCfg`: the discriminant is narrowed to
the string literal `'3'`, not to the integer 3. -/
def intKeyFun : PyFunctionDef :=
  ⟨false, "f".data,
   [⟨"k".data, some (.subSingle "Literal".data (.const (.str ('3' :: []))))⟩],
   [.exprStmt (.const .ellipsis)], [.name "overload".data], .name "int".data⟩

/-- Configuration passed to the class-method generator with `has_self`
explicitly false (the subclass constructor overrides it). -/
def clsCfg : GenConfig :=
  ⟨"m".data, [(.strKey "a".data, .strVal "int".data)], "k".data, [],
   false, false, true, "Any".data⟩

/-- The overload method generated for `classMethodInit "C" clsCfg`: it has a
leading untyped `self` parameter although `clsCfg.has_self` is false. -/
def clsOverload : PyFunctionDef :=
  ⟨false, "m".data,
   [⟨"self".data, none⟩,
    ⟨"k".data, some (.subSingle "Literal".data (.const (.str "a".data)))⟩],
   [.exprStmt (.const .ellipsis)], [.name "overload".data], .name "int".data⟩

/-- The implementation method generated for `classMethodInit "C" clsCfg`. -/
def clsImpl : PyFunctionDef :=
  ⟨false, "m".data,
   [⟨"self".data, none⟩, ⟨"k".data, some (.name "str".data)⟩],
   [.exprStmt (.const .ellipsis)], [], .name "Any".data⟩

/-- A well-formed type node of nesting depth two, the code-syntax form of
`Map<String, List<Int>>`. -/
def exNode : PyExpr :=
  .subTuple "Map".data [.name "String".data, .subSingle "List".data (.name "Int".data)]

/-- Every prefix closes at most `k` brackets more than it opens (slack
version of `PrefOk`, used to compose bracket-depth facts over
concatenations). -/
def SlackOk (k : Int) (l : List Char) : Prop :=
  ∀ p q, l = p ++ q → closesC p ≤ k + opensC p

/-- Every comma of the string sits at scan depth above `-k` (slack version
of `ComDeep`). -/
def ComSlack (k : Int) (l : List Char) : Prop :=
  ∀ p q, l = p ++ ',' :: q → closesC p < k + opensC p

/-- A string beginning with an identifier character (in particular it is
nonempty and does not start with whitespace, a bracket or a comma). -/
def HeadIdent (l : List Char) : Prop :=
  ∃ c t, l = c :: t ∧ identChar c = true

/-- The string is nonempty and its last character is an identifier
character. -/
def LastIdent (l : List Char) : Prop :=
  ∃ c, l.getLast? = some c ∧ identChar c = true

/-- The string does not end with whitespace. -/
def LastNoSp (l : List Char) : Prop :=
  ∀ c, l.getLast? = some c → isPySpace c = false

/-- The scanning facts the round-trip proof tracks about the serialization
of a well-formed type node: it starts with an identifier character, its
brackets are balanced with no prefix closing more than it opened, all its
commas sit strictly inside brackets, after removing trailing `]` it still
ends in an identifier character, and it does not end with whitespace. -/
def UF (l : List Char) : Prop :=
  HeadIdent l ∧ Bal l ∧ PrefOk l ∧ ComDeep l ∧ LastIdent (rstripBr l) ∧ LastNoSp l

theorem mapMO_cons_some {α β : Type} {f : α → Option β} {a : α} {as : List α}
    {bs : List β} (h : mapMO f (a :: as) = some bs) :
    ∃ b cs, f a = some b ∧ mapMO f as = some cs ∧ bs = b :: cs := by
  unfold mapMO at h
  cases hfa : f a with
  | none => rw [hfa] at h; simp at h
  | some b =>
    rw [hfa] at h
    cases hr : mapMO f as with
    | none => rw [hr] at h; simp at h
    | some cs =>
      rw [hr] at h
      simp at h
      exact ⟨b, cs, rfl, rfl, h.symm⟩

theorem mapMO_length {α β : Type} {f : α → Option β} :
    ∀ {l : List α} {bs : List β}, mapMO f l = some bs → bs.length = l.length
  | [], bs, h => by
    simp [mapMO] at h
    simp [← h]
  | a :: as, bs, h => by
    obtain ⟨b, cs, _, hr, rfl⟩ := mapMO_cons_some h
    simp [mapMO_length hr]

theorem mapMO_get {α β : Type} {f : α → Option β} :
    ∀ {l : List α} {bs : List β}, mapMO f l = some bs →
      ∀ i (h1 : i < l.length) (h2 : i < bs.length),
        f (l.get ⟨i, h1⟩) = some (bs.get ⟨i, h2⟩)
  | [], _, _, _, h1, _ => by simp at h1
  | a :: as, bs, h, i, h1, h2 => by
    obtain ⟨b, cs, hfa, hr, rfl⟩ := mapMO_cons_some h
    match i with
    | 0 => simpa using hfa
    | Nat.succ n =>
      simp only [List.get_cons_succ]
      exact mapMO_get hr n (by simpa using h1) (by simpa using h2)

theorem mapMO_mem {α β : Type} {f : α → Option β} :
    ∀ {l : List α} {bs : List β}, mapMO f l = some bs →
      ∀ b ∈ bs, ∃ a, a ∈ l ∧ f a = some b
  | [], bs, h, b, hb => by
    simp [mapMO] at h
    subst h
    simp at hb
  | a :: as, bs, h, b, hb => by
    obtain ⟨b0, cs, hfa, hr, rfl⟩ := mapMO_cons_some h
    rcases List.mem_cons.mp hb with rfl | hb2
    · exact ⟨a, List.mem_cons_self a as, hfa⟩
    · obtain ⟨a0, ha0, hfa0⟩ := mapMO_mem hr b hb2
      exact ⟨a0, List.mem_cons_of_mem a ha0, hfa0⟩

theorem mapMO_append_some {α β : Type} {f : α → Option β} :
    ∀ {l1 l2 : List α} {b1 b2 : List β},
      mapMO f l1 = some b1 → mapMO f l2 = some b2 →
      mapMO f (l1 ++ l2) = some (b1 ++ b2)
  | [], l2, b1, b2, h1, h2 => by
    simp [mapMO] at h1
    simp [← h1, h2]
  | a :: as, l2, b1, b2, h1, h2 => by
    obtain ⟨b, cs, hfa, hr, rfl⟩ := mapMO_cons_some h1
    simp only [List.cons_append]
    unfold mapMO
    rw [hfa, mapMO_append_some hr h2]
    rfl

theorem mapMO_map_self {α β : Type} {f : β → Option α} {u : α → β} :
    ∀ {l : List α}, (∀ a ∈ l, f (u a) = some a) → mapMO f (l.map u) = some l := by
  intro l
  induction l with
  | nil => intro _; rfl
  | cons a as ih =>
    intro h
    simp only [List.map_cons]
    unfold mapMO
    rw [h a (List.mem_cons_self a as), ih (fun x hx => h x (List.mem_cons_of_mem a hx))]
    rfl

theorem createArguments_some {cfg : GenConfig} {lv : Option (List Char)}
    {args : List PyArg} (h : createArguments cfg lv = some args) :
    ∃ addl,
      mapMO (fun p => (createTypeAnn p.2).map (fun t => PyArg.mk p.1 (some t)))
          cfg.additional_params = some addl ∧
      args = (if cfg.has_self then [⟨"self".data, none⟩] else []) ++
        ⟨cfg.key_param, some (keyAnnOf lv)⟩ :: addl := by
  simp only [createArguments] at h
  cases hm : mapMO (fun p => (createTypeAnn p.2).map (fun t => PyArg.mk p.1 (some t)))
      cfg.additional_params with
  | none => rw [hm] at h; simp at h
  | some addl =>
    rw [hm] at h
    simp at h
    exact ⟨addl, rfl, h.symm⟩

theorem createOverloadFunction_some {cfg : GenConfig} {key rtn : List Char}
    {f : PyFunctionDef} (h : createOverloadFunction cfg key rtn = some f) :
    ∃ args ret, createArguments cfg (some key) = some args ∧
      createTypeAnn rtn = some ret ∧
      f = ⟨cfg.is_async, cfg.function_name, args,
        [.exprStmt (.const .ellipsis)], [.name "overload".data], ret⟩ := by
  unfold createOverloadFunction at h
  cases ha : createArguments cfg (some key) with
  | none => rw [ha] at h; simp at h
  | some args =>
    rw [ha] at h
    cases hr : createTypeAnn rtn with
    | none => rw [hr] at h; simp at h
    | some ret =>
      rw [hr] at h
      simp at h
      exact ⟨args, ret, rfl, rfl, h.symm⟩

theorem createImplementationFunction_some {cfg : GenConfig}
    {body : Option (List Char)} {f : PyFunctionDef}
    (h : createImplementationFunction cfg body = some f) :
    ∃ args ret bodyS, createArguments cfg none = some args ∧
      createTypeAnn cfg.return_type_fallback = some ret ∧
      f = ⟨cfg.is_async, cfg.function_name, args, bodyS, [], ret⟩ := by
  simp only [createImplementationFunction] at h
  cases ha : createArguments cfg none with
  | none => rw [ha] at h; simp at h
  | some args =>
    rw [ha] at h
    cases hr : createTypeAnn cfg.return_type_fallback with
    | none => rw [hr] at h; simp at h
    | some ret =>
      rw [hr] at h
      simp at h
      exact ⟨args, ret, _, rfl, rfl, h.symm⟩

theorem generateModule_some {cfg : GenConfig} {incl : Bool}
    {body : Option (List Char)} {fs : List PyFunctionDef}
    (h : generateModule cfg incl body = some fs) :
    ∃ ovs,
      mapMO (fun kv => createOverloadFunction cfg (keyStr kv.1)
          (getReturnTypeName cfg kv.2)) cfg.mapping = some ovs ∧
      ((incl = true ∧ ∃ impl, createImplementationFunction cfg body = some impl ∧
          fs = ovs ++ [impl]) ∨
       (incl = false ∧ fs = ovs)) := by
  unfold generateModule at h
  cases hm : mapMO (fun kv => createOverloadFunction cfg (keyStr kv.1)
      (getReturnTypeName cfg kv.2)) cfg.mapping with
  | none => rw [hm] at h; simp at h
  | some ovs =>
    rw [hm] at h
    cases incl with
    | false =>
      simp at h
      exact ⟨ovs, rfl, Or.inr ⟨rfl, h.symm⟩⟩
    | true =>
      simp only [reduceIte] at h
      cases hi : createImplementationFunction cfg body with
      | none => rw [hi] at h; simp at h
      | some impl =>
        rw [hi] at h
        simp at h
        exact ⟨ovs, rfl, Or.inl ⟨rfl, impl, rfl, h.symm⟩⟩

theorem generateModule_overload_get {cfg : GenConfig} {incl : Bool}
    {body : Option (List Char)} {fs : List PyFunctionDef}
    (h : generateModule cfg incl body = some fs) :
    ∀ i (hm : i < cfg.mapping.length) (hf : i < fs.length),
      createOverloadFunction cfg (keyStr (cfg.mapping.get ⟨i, hm⟩).1)
        (getReturnTypeName cfg (cfg.mapping.get ⟨i, hm⟩).2) =
        some (fs.get ⟨i, hf⟩) := by
  obtain ⟨ovs, hmap, hcase⟩ := generateModule_some h
  have hlen := mapMO_length hmap
  intro i hm hf
  have hio : i < ovs.length := by omega
  have hget := mapMO_get hmap i hm hio
  have hfs : fs.get ⟨i, hf⟩ = ovs.get ⟨i, hio⟩ := by
    rcases hcase with ⟨_, impl, _, rfl⟩ | ⟨_, rfl⟩
    · simp only [List.get_eq_getElem]
      exact List.getElem_append_left hio
    · rfl
  rw [hfs]
  exact hget

theorem joinSep_cons_eq (sep x : List Char) :
    ∀ xs, joinSep sep (x :: xs) = x ++ (xs.map (fun y => sep ++ y)).flatten
  | [] => by simp [joinSep]
  | y :: ys => by
    have ih := joinSep_cons_eq sep y ys
    simp [joinSep, ih]

/-- Claim C1, counterexample: the parser is not total.  On the input
`list[]` — a base followed immediately by an empty bracket pair — the
argument blob is empty after `rstrip(']')`, `arg_list` stays empty, and the
source evaluates `arg_list[0]`, raising `IndexError` (modelled by `none`). -/
theorem c1_counterexample : createTypeAnn "list[]".data = none := rfl

/-- Claim C1, amended: the parser returns a type node for every input that
contains no opening bracket (the result is the leaf name node over the
stripped text); an input with a bracket whose argument blob is empty after
stripping trailing `]` raises `IndexError` instead of returning a node. -/
theorem c1_amended_bracket_free_total (s : List Char) (h : '[' ∉ s) :
    createTypeAnn s = some (.name (pyStrip s)) := by
  unfold createTypeAnn parseFuel
  rw [if_neg h]

/-- Witness for the amended claim C1 at the concrete input `int`. -/
theorem c1_witness :
    ('[' ∉ "int".data) ∧ createTypeAnn "int".data = some (.name (pyStrip "int".data)) :=
  ⟨by decide, c1_amended_bracket_free_total "int".data (by decide)⟩

/-- Claim C3: parsing `Map[String, List[Int]]` yields base `Map` with
exactly two arguments, the second of which has base `List` with the single
argument `Int` (itself argument-free); the nested comma is not treated as a
top-level separator. -/
theorem c3_nested_generic_parse :
    createTypeAnn "Map[String, List[Int]]".data =
      some (.subTuple "Map".data
        [.name "String".data, .subSingle "List".data (.name "Int".data)]) := rfl

/-- Claim C4, counterexample: generation does not produce `len(mapping)`
declarations for every mapping and configuration — with the single-entry
mapping `{'a': 'x[]'}` the return-type string `x[]` makes
`_create_type_annotation` raise `IndexError`, so `generate` raises and no
module is produced at all. -/
theorem c4_counterexample : generateModule badValueCfg false none = none := rfl

/-- Claim C4, amended: whenever generation succeeds (returns a module), the
module body holds exactly `len(mapping)` function declarations without the
implementation and exactly `len(mapping) + 1` with it; in the latter case
the body is exactly the overload sequence (what generation without the
implementation produces) with the implementation declaration appended after
it, so the implementation declaration is the last declaration. -/
theorem c4_cardinality (cfg : GenConfig) (incl : Bool) (body : Option (List Char))
    (fs : List PyFunctionDef) (h : generateModule cfg incl body = some fs) :
    fs.length = cfg.mapping.length + (if incl then 1 else 0) ∧
    (incl = true →
      ∃ impl ovs, createImplementationFunction cfg body = some impl ∧
        generateModule cfg false body = some ovs ∧
        fs = ovs ++ [impl] ∧ fs.getLast? = some impl) := by
  obtain ⟨ovs, hm, hcase⟩ := generateModule_some h
  have hlen := mapMO_length hm
  have hfalse : generateModule cfg false body = some ovs := by
    unfold generateModule
    rw [hm]
    rfl
  rcases hcase with ⟨rfl, impl, hi, rfl⟩ | ⟨rfl, rfl⟩
  · refine ⟨by simp [hlen], fun _ => ⟨impl, ovs, hi, hfalse, rfl, ?_⟩⟩
    rw [List.getLast?_concat]
  · exact ⟨by simp [hlen], fun hc => absurd hc (by simp)⟩

/-- Witness for the amended claim C4: one mapping entry plus the
implementation gives two declarations, the implementation last. -/
theorem c4_witness :
    generateModule exCfg1 true none = some [exOverload1, exImpl1] ∧
    (([exOverload1, exImpl1] : List PyFunctionDef).length =
        exCfg1.mapping.length + (if true then 1 else 0) ∧
      (true = true →
        ∃ impl ovs, createImplementationFunction exCfg1 none = some impl ∧
          generateModule exCfg1 false none = some ovs ∧
          ([exOverload1, exImpl1] : List PyFunctionDef) = ovs ++ [impl] ∧
          ([exOverload1, exImpl1] : List PyFunctionDef).getLast? = some impl)) :=
  ⟨rfl, c4_cardinality exCfg1 true none [exOverload1, exImpl1] rfl⟩

/-- Claim C5: for every configuration on which generation (without
implementation) succeeds, the overloads come out one per mapping entry in
the mapping's iteration order: the module has exactly `len(mapping)`
declarations and the i-th declaration bears the configured function name,
the `@overload` decorator, and a discriminant parameter narrowed to the
literal of the i-th key. -/
theorem c5_mapping_order (cfg : GenConfig) (fs : List PyFunctionDef)
    (h : generateModule cfg false none = some fs) :
    fs.length = cfg.mapping.length ∧
    ∀ i (hf : i < fs.length) (hm : i < cfg.mapping.length),
      (fs.get ⟨i, hf⟩).name = cfg.function_name ∧
      (fs.get ⟨i, hf⟩).decorator_list = [.name "overload".data] ∧
      (fs.get ⟨i, hf⟩).args[if cfg.has_self then 1 else 0]? =
        some ⟨cfg.key_param, some (createLiteralAnn (keyStr (cfg.mapping.get ⟨i, hm⟩).1))⟩ := by
  obtain ⟨ovs, hmap, hcase⟩ := generateModule_some h
  have hlen : fs.length = cfg.mapping.length := by
    rcases hcase with ⟨hF, _⟩ | ⟨_, rfl⟩
    · exact absurd hF (by simp)
    · exact mapMO_length hmap
  refine ⟨hlen, ?_⟩
  intro i hf hm
  have hov := generateModule_overload_get h i hm hf
  obtain ⟨args, ret, ha, hr, hfi⟩ := createOverloadFunction_some hov
  obtain ⟨addl, _, hargs⟩ := createArguments_some ha
  subst hargs
  refine ⟨?_, ?_, ?_⟩
  · rw [hfi]
  · rw [hfi]
  · rw [hfi]
    cases hhs : cfg.has_self with
    | false => simp [hhs, keyAnnOf]
    | true => simp [hhs, keyAnnOf]

/-- Witness for claim C5: keys `a`, `b`, `c` in insertion order give three
overloads in that order; the middle one is narrowed to `'b'`. -/
theorem c5_witness :
    generateModule ordCfg false none =
      some [ordFun "a".data, ordFun "b".data, ordFun "c".data] ∧
    ([ordFun "a".data, ordFun "b".data, ordFun "c".data] : List PyFunctionDef).length =
      ordCfg.mapping.length ∧
    (ordFun "b".data).args[0]? = some ⟨"k".data, some (createLiteralAnn "b".data)⟩ := by
  have h := c5_mapping_order ordCfg [ordFun "a".data, ordFun "b".data, ordFun "c".data] rfl
  refine ⟨rfl, h.1, ?_⟩
  have h2 := (h.2 1 (by decide) (by decide)).2.2
  simpa using h2

/-- Claim C6: with return-type resolution enabled, `_get_return_type_name`
never fails and resolves a type reference to its declared name, a string to
itself, and anything else to the configured fallback name; the generated
overload's return type is that resolved name parsed as a type expression
(so for an unresolvable value it equals the fallback type). -/
theorem c6_fallback_policy (cfg : GenConfig) (key : List Char) (v : MapValue)
    (f : PyFunctionDef) (henabled : cfg.return_type_from_mapping = true)
    (h : createOverloadFunction cfg key (getReturnTypeName cfg v) = some f) :
    getReturnTypeName cfg v =
      (match v with
       | .typeRef n _ => n
       | .strVal s => s
       | .other _ => cfg.return_type_fallback) ∧
    createTypeAnn (getReturnTypeName cfg v) = some f.returns := by
  constructor
  · cases v <;> simp [getReturnTypeName, henabled]
  · obtain ⟨args, ret, ha, hr, rfl⟩ := createOverloadFunction_some h
    simpa using hr

/-- Witness for claim C6 at a value that is neither a type reference nor a
string: the return type is the fallback `Any`. -/
theorem c6_witness :
    exCfg1.return_type_from_mapping = true ∧
    createOverloadFunction exCfg1 "a".data
      (getReturnTypeName exCfg1 (.other "z".data)) = some fbFun ∧
    getReturnTypeName exCfg1 (.other "z".data) = exCfg1.return_type_fallback ∧
    createTypeAnn (getReturnTypeName exCfg1 (.other "z".data)) = some fbFun.returns := by
  have h := c6_fallback_policy exCfg1 "a".data (.other "z".data) fbFun rfl rfl
  exact ⟨rfl, rfl, h.1, h.2⟩

/-- Claim C7: the end-to-end scenario.  For the mapping
`{'json': 'dict[str, Any]', 'xml': 'str'}` with key parameter `format`, one
additional parameter `('data', 'bytes')`, non-async, no receiver and
return-type resolution disabled, generation without implementation yields
exactly the two expected `@overload` declarations with placeholder bodies
(`scnJson`/`scnXml` spell out every field), for any function name; and with
resolution disabled the resolved return type is always the textual
(`str(...)`) form of the mapping value. -/
theorem c7_scenario :
    (∀ fname : List Char,
      generateModule (scnCfg fname) false none = some [scnJson fname, scnXml fname]) ∧
    (∀ (fn : List Char) (m : List (MapKey × MapValue)) (kp : List Char)
        (ap : List (List Char × List Char)) (ia hs : Bool) (fb : List Char)
        (v : MapValue),
      getReturnTypeName ⟨fn, m, kp, ap, ia, hs, false, fb⟩ v = pyStr v) :=
  ⟨fun _ => rfl, fun _ _ _ _ _ _ _ _ => rfl⟩

/-- Claim C8: `generate_with_imports` output starts with the fixed
baseline import of `overload` and `Literal`, then each extra import
verbatim on its own line in the given order, then exactly two blank
lines (the `'\n\n\n'` separator after the unterminated last import
line), then exactly the code produced by `generate` on the same
arguments. -/
theorem c8_import_layout (cfg : GenConfig) (incl : Bool) (body : Option (List Char))
    (extras : List (List Char)) :
    generateWithImports cfg incl body extras =
      (generate cfg incl body).map (fun code =>
        baselineImport ++ (extras.map (fun imp => '\n' :: imp)).flatten ++
          '\n' :: '\n' :: '\n' :: code) := by
  unfold generateWithImports
  cases hg : generate cfg incl body with
  | none => rfl
  | some code => simp [joinSep_cons_eq]

/-- Claim C9: every discriminant key is coerced by `str(...)` before
narrowing — in every generated overload the discriminant parameter's
annotation is `Literal[...]` over a string constant holding `str(key)`,
never over the original key value. -/
theorem c9_key_string_coercion (cfg : GenConfig) (incl : Bool)
    (body : Option (List Char)) (fs : List PyFunctionDef)
    (h : generateModule cfg incl body = some fs) :
    ∀ i (hm : i < cfg.mapping.length) (hf : i < fs.length),
      (fs.get ⟨i, hf⟩).args[if cfg.has_self then 1 else 0]? =
        some ⟨cfg.key_param,
          some (.subSingle "Literal".data
            (.const (.str (keyStr (cfg.mapping.get ⟨i, hm⟩).1))))⟩ := by
  intro i hm hf
  have hov := generateModule_overload_get h i hm hf
  obtain ⟨args, ret, ha, hr, hfi⟩ := createOverloadFunction_some hov
  obtain ⟨addl, _, hargs⟩ := createArguments_some ha
  subst hargs
  rw [hfi]
  cases hhs : cfg.has_self with
  | false => simp [hhs, keyAnnOf, createLiteralAnn]
  | true => simp [hhs, keyAnnOf, createLiteralAnn]

/-- Witness for claim C9 with the integer key 3: the literal annotation is
over the string `'3'`, not the integer. -/
theorem c9_witness :
    generateModule intKeyCfg false none = some [intKeyFun] ∧
    intKeyFun.args[0]? = some ⟨"k".data,
      some (.subSingle "Literal".data (.const (.str ('3' :: []))))⟩ := by
  have h := c9_key_string_coercion intKeyCfg false none [intKeyFun] rfl 0
    (by decide) (by decide)
  exact ⟨rfl, by simpa using h⟩

/-- Claim C10: the class-method generator unconditionally forces the
receiver — `ClassMethodOverloadGenerator.__init__` sets `has_self := true`
whatever the caller passed, and consequently every method it generates,
overloads and implementation alike, begins with the untyped `self`
parameter. -/
theorem c10_forced_receiver (cn : List Char) (cfg : GenConfig) (incl : Bool)
    (body : Option (List Char)) (fs : List PyFunctionDef)
    (h : generateClassMethods (classMethodInit cn cfg) incl body = some fs) :
    (classMethodInit cn cfg).cfg.has_self = true ∧
    ∀ f ∈ fs, f.args.head? = some ⟨"self".data, none⟩ := by
  refine ⟨rfl, ?_⟩
  have h2 : generateModule { cfg with has_self := true } incl body = some fs := h
  obtain ⟨ovs, hmap, hcase⟩ := generateModule_some h2
  have hov : ∀ f ∈ ovs, f.args.head? = some ⟨"self".data, none⟩ := by
    intro f hf
    obtain ⟨kv, _, hkv⟩ := mapMO_mem hmap f hf
    obtain ⟨args, ret, ha, _, rfl⟩ := createOverloadFunction_some hkv
    obtain ⟨addl, _, hargs⟩ := createArguments_some ha
    subst hargs
    simp
  intro f hf
  rcases hcase with ⟨_, impl, hi, rfl⟩ | ⟨_, rfl⟩
  · rcases List.mem_append.mp hf with hf1 | hf2
    · exact hov f hf1
    · have hfi : f = impl := by simpa using hf2
      subst hfi
      obtain ⟨args, ret, bodyS, ha, _, rfl⟩ := createImplementationFunction_some hi
      obtain ⟨addl, _, hargs⟩ := createArguments_some ha
      subst hargs
      simp
  · exact hov f hf

/-- Witness for claim C10: `clsCfg` passes `has_self := false`, yet both the
generated overload and the generated implementation start with `self`. -/
theorem c10_witness :
    clsCfg.has_self = false ∧
    generateClassMethods (classMethodInit "C".data clsCfg) true none =
      some [clsOverload, clsImpl] ∧
    clsOverload.args.head? = some ⟨"self".data, none⟩ ∧
    clsImpl.args.head? = some ⟨"self".data, none⟩ := by
  have h := c10_forced_receiver "C".data clsCfg true none [clsOverload, clsImpl] rfl
  exact ⟨rfl, rfl, h.2 clsOverload (by simp), h.2 clsImpl (by simp)⟩

theorem opensC_append : ∀ a b : List Char, opensC (a ++ b) = opensC a + opensC b
  | [], b => by simp [opensC]
  | c :: t, b => by
    have ih := opensC_append t b
    show (if c = '[' then 1 else 0) + opensC (t ++ b) =
      ((if c = '[' then 1 else 0) + opensC t) + opensC b
    rw [ih]
    ring

theorem closesC_append : ∀ a b : List Char, closesC (a ++ b) = closesC a + closesC b
  | [], b => by simp [closesC]
  | c :: t, b => by
    have ih := closesC_append t b
    show (if c = ']' then 1 else 0) + closesC (t ++ b) =
      ((if c = ']' then 1 else 0) + closesC t) + closesC b
    rw [ih]
    ring

theorem opensC_nonneg : ∀ l : List Char, 0 ≤ opensC l
  | [] => le_refl 0
  | c :: t => by
    have := opensC_nonneg t
    simp only [opensC]
    split <;> omega

theorem closesC_nonneg : ∀ l : List Char, 0 ≤ closesC l
  | [] => le_refl 0
  | c :: t => by
    have := closesC_nonneg t
    simp only [closesC]
    split <;> omega

theorem identChar_facts {c : Char} (h : identChar c = true) :
    c ≠ '[' ∧ c ≠ ']' ∧ c ≠ ',' ∧ isPySpace c = false := by
  unfold identChar at h
  rw [decide_eq_true_eq] at h
  push_neg at h
  exact ⟨h.1, h.2.1, h.2.2.1, by simpa using h.2.2.2⟩

theorem identOk_facts {l : List Char} (h : identOk l = true) :
    l ≠ [] ∧ ∀ c ∈ l, identChar c = true := by
  unfold identOk at h
  rw [Bool.and_eq_true] at h
  constructor
  · intro hnil
    subst hnil
    simp at h
  · intro c hc
    have h2 := h.2
    rw [List.all_eq_true] at h2
    exact h2 c hc

theorem opensC_zero_of_ident {l : List Char} (h : ∀ c ∈ l, identChar c = true) :
    opensC l = 0 := by
  induction l with
  | nil => rfl
  | cons c t ih =>
    have hc := (identChar_facts (h c (List.mem_cons_self c t))).1
    have ht := ih (fun d hd => h d (List.mem_cons_of_mem c hd))
    simp [opensC, hc, ht]

theorem closesC_zero_of_ident {l : List Char} (h : ∀ c ∈ l, identChar c = true) :
    closesC l = 0 := by
  induction l with
  | nil => rfl
  | cons c t ih =>
    have hc := (identChar_facts (h c (List.mem_cons_self c t))).2.1
    have ht := ih (fun d hd => h d (List.mem_cons_of_mem c hd))
    simp [closesC, hc, ht]

theorem dropWhile_head_false {p : Char → Bool} {l : List Char}
    (h : ∀ c, l.head? = some c → p c = false) : l.dropWhile p = l := by
  cases l with
  | nil => rfl
  | cons a t => simp [List.dropWhile_cons, h a rfl]

theorem dropWhile_all_true {p : Char → Bool} :
    ∀ {x : List Char} (y : List Char), (∀ c ∈ x, p c = true) →
      (x ++ y).dropWhile p = y.dropWhile p
  | [], y, _ => rfl
  | c :: t, y, h => by
    simp only [List.cons_append, List.dropWhile_cons, h c (List.mem_cons_self c t), if_true]
    exact dropWhile_all_true y (fun d hd => h d (List.mem_cons_of_mem c hd))

theorem dropWhile_append_left {p : Char → Bool} :
    ∀ (x y : List Char), x.dropWhile p ≠ [] → (x ++ y).dropWhile p = x.dropWhile p ++ y
  | [], _, h => absurd rfl h
  | c :: t, y, h => by
    by_cases hc : p c = true
    · simp only [List.cons_append, List.dropWhile_cons, hc, if_true] at h ⊢
      exact dropWhile_append_left t y h
    · simp only [List.cons_append, List.dropWhile_cons, hc]
      simp [Bool.not_eq_true] at hc
      simp [hc]

theorem pyStrip_eq_self {l : List Char}
    (h1 : ∀ c, l.head? = some c → isPySpace c = false) (h2 : LastNoSp l) :
    pyStrip l = l := by
  have e1 : l.dropWhile isPySpace = l := dropWhile_head_false h1
  have e2 : l.reverse.dropWhile isPySpace = l.reverse :=
    dropWhile_head_false (fun c hc => h2 c (by rwa [List.head?_reverse] at hc))
  unfold pyStrip
  rw [e1, e2, List.reverse_reverse]

theorem pyStrip_space_pre {sp l : List Char} (hs : ∀ c ∈ sp, isPySpace c = true) :
    pyStrip (sp ++ l) = pyStrip l := by
  unfold pyStrip
  rw [dropWhile_all_true l hs]

theorem pyStrip_length_le (l : List Char) : (pyStrip l).length ≤ l.length := by
  unfold pyStrip
  have h1 : (l.dropWhile isPySpace).length ≤ l.length :=
    List.Sublist.length_le (List.dropWhile_sublist _)
  have h2 : ((l.dropWhile isPySpace).reverse.dropWhile isPySpace).length ≤
      (l.dropWhile isPySpace).reverse.length :=
    List.Sublist.length_le (List.dropWhile_sublist _)
  simp only [List.length_reverse] at h2 ⊢
  omega

theorem rstripBr_append_br (l : List Char) : rstripBr (l ++ [']']) = rstripBr l := by
  unfold rstripBr
  simp [List.dropWhile_cons]

theorem rstripBr_eq_self {l : List Char}
    (h : ∀ c, l.getLast? = some c → c ≠ ']') : rstripBr l = l := by
  unfold rstripBr
  rw [dropWhile_head_false (fun c hc => ?_), List.reverse_reverse]
  have := h c (by rwa [List.head?_reverse] at hc)
  simpa using this

theorem rstripBr_append_left {a b : List Char} (h : rstripBr b ≠ []) :
    rstripBr (a ++ b) = a ++ rstripBr b := by
  have hne : b.reverse.dropWhile (fun c => c = ']') ≠ [] := by
    intro hnil
    apply h
    unfold rstripBr
    rw [hnil]
    rfl
  unfold rstripBr
  rw [List.reverse_append, dropWhile_append_left _ _ hne, List.reverse_append,
    List.reverse_reverse]

theorem rstripBr_decomp (l : List Char) :
    ∃ t, l = rstripBr l ++ t ∧ ∀ c ∈ t, c = ']' := by
  refine ⟨(l.reverse.takeWhile (fun c => c = ']')).reverse, ?_, ?_⟩
  · have e : l.reverse.takeWhile (fun c => c = ']') ++
        l.reverse.dropWhile (fun c => c = ']') = l.reverse :=
      List.takeWhile_append_dropWhile ..
    calc l = l.reverse.reverse := (List.reverse_reverse l).symm
    _ = (l.reverse.takeWhile (fun c => c = ']') ++
          l.reverse.dropWhile (fun c => c = ']')).reverse := by rw [e]
    _ = rstripBr l ++ (l.reverse.takeWhile (fun c => c = ']')).reverse := by
          rw [List.reverse_append]; rfl
  · intro c hc
    rw [List.mem_reverse] at hc
    have := List.mem_takeWhile_imp hc
    simpa using this

theorem rstripBr_length_le (l : List Char) : (rstripBr l).length ≤ l.length := by
  unfold rstripBr
  have h1 : (l.reverse.dropWhile (fun c => c = ']')).length ≤ l.reverse.length :=
    List.Sublist.length_le (List.dropWhile_sublist _)
  simp only [List.length_reverse] at h1 ⊢
  exact h1

theorem rstripBr_head {l : List Char} {c : Char} {t : List Char}
    (hl : l = c :: t) (hc : c ≠ ']') : ∃ t2, rstripBr l = c :: t2 := by
  obtain ⟨u, hu, hall⟩ := rstripBr_decomp l
  cases hr : rstripBr l with
  | nil =>
    rw [hr] at hu
    simp only [List.nil_append] at hu
    exact absurd (hall c (by rw [← hu, hl]; exact List.mem_cons_self c t)) hc
  | cons d t2 =>
    rw [hr, hl] at hu
    simp only [List.cons_append] at hu
    injection hu with h1 h2
    exact ⟨t2, by rw [h1]⟩

theorem lastIdent_ne_nil {l : List Char} (h : LastIdent l) : l ≠ [] := by
  obtain ⟨c, hc, _⟩ := h
  intro hnil
  rw [hnil] at hc
  simp at hc

theorem slackOk_mono {k k2 : Int} {l : List Char} (hk : k ≤ k2) (h : SlackOk k l) :
    SlackOk k2 l := fun p q hpq => le_trans (h p q hpq) (by omega)

theorem slackOk_append {k : Int} {x y : List Char} (hx : SlackOk k x)
    (hy : SlackOk (k + opensC x - closesC x) y) : SlackOk k (x ++ y) := by
  intro p q hpq
  rcases List.append_eq_append_iff.mp hpq with ⟨r, hr1, hr2⟩ | ⟨r, hr1, hr2⟩
  · subst hr1
    have h1 := hy r q hr2
    have e1 := opensC_append x r
    have e2 := closesC_append x r
    omega
  · exact hx p r hr1

theorem slackOk_of_ident {k : Int} {l : List Char} (hk : 0 ≤ k)
    (h : ∀ c ∈ l, identChar c = true) : SlackOk k l := by
  intro p q hpq
  have hp : ∀ c ∈ p, identChar c = true := fun c hc =>
    h c (by rw [hpq]; exact List.mem_append_left q hc)
  have h1 := closesC_zero_of_ident hp
  have h2 := opensC_zero_of_ident hp
  omega

theorem comSlack_append {k : Int} {x y : List Char} (hx : ComSlack k x)
    (hy : ComSlack (k + opensC x - closesC x) y) : ComSlack k (x ++ y) := by
  intro p q hpq
  rcases List.append_eq_append_iff.mp hpq with ⟨r, hr1, hr2⟩ | ⟨r, hr1, hr2⟩
  · subst hr1
    have h1 := hy r q hr2
    have e1 := opensC_append x r
    have e2 := closesC_append x r
    omega
  · cases r with
    | nil =>
      rw [List.append_nil] at hr1
      simp only [List.nil_append] at hr2
      subst hr1
      have h1 := hy [] q (by rw [List.nil_append, hr2])
      have e0 : closesC ([] : List Char) = 0 := rfl
      have e1 : opensC ([] : List Char) = 0 := rfl
      omega
    | cons c r2 =>
      have hc : c = ',' := by
        have h2 := congrArg List.head? hr2
        simpa using h2.symm
      subst hc
      exact hx p r2 hr1

theorem comSlack_of_noComma {k : Int} {l : List Char} (h : ',' ∉ l) : ComSlack k l := by
  intro p q hpq
  refine absurd ?_ h
  rw [hpq]
  exact List.mem_append_right p (List.mem_cons_self ..)

theorem comSlack_of_slackOk {k : Int} {l : List Char} (h : SlackOk k l) :
    ComSlack (k + 1) l := by
  intro p q hpq
  have := h p (',' :: q) hpq
  omega

theorem splitArgs_nil (d : Int) (cur : List Char) (acc : List (List Char)) :
    splitArgs [] d cur acc = if cur.isEmpty then acc else acc ++ [pyStrip cur] := rfl

theorem splitArgs_open (rest : List Char) (d : Int) (cur : List Char)
    (acc : List (List Char)) :
    splitArgs ('[' :: rest) d cur acc = splitArgs rest (d + 1) (cur ++ ['[']) acc := by
  simp [splitArgs]

theorem splitArgs_close (rest : List Char) (d : Int) (cur : List Char)
    (acc : List (List Char)) :
    splitArgs (']' :: rest) d cur acc = splitArgs rest (d - 1) (cur ++ [']']) acc := by
  simp [splitArgs]

theorem splitArgs_comma0 (rest : List Char) (cur : List Char) (acc : List (List Char)) :
    splitArgs (',' :: rest) 0 cur acc = splitArgs rest 0 [] (acc ++ [pyStrip cur]) := by
  simp [splitArgs]

theorem splitArgs_comma_ne (rest : List Char) (d : Int) (cur : List Char)
    (acc : List (List Char)) (h : d ≠ 0) :
    splitArgs (',' :: rest) d cur acc = splitArgs rest d (cur ++ [',']) acc := by
  simp [splitArgs, h]

theorem splitArgs_other (c : Char) (rest : List Char) (d : Int) (cur : List Char)
    (acc : List (List Char)) (h1 : c ≠ '[') (h2 : c ≠ ']') (h3 : c ≠ ',') :
    splitArgs (c :: rest) d cur acc = splitArgs rest d (cur ++ [c]) acc := by
  simp [splitArgs, h1, h2, h3]

theorem scanSkip : ∀ (u : List Char) (d : Int) (rest cur : List Char)
    (acc : List (List Char)),
    (∀ p q, u = p ++ ',' :: q → d + opensC p - closesC p ≠ 0) →
    splitArgs (u ++ rest) d cur acc =
      splitArgs rest (d + opensC u - closesC u) (cur ++ u) acc
  | [], d, rest, cur, acc, _ => by simp [opensC, closesC]
  | c :: u2, d, rest, cur, acc, hcom => by
    by_cases h1 : c = '['
    · subst h1
      have hcom2 : ∀ p q, u2 = p ++ ',' :: q → (d + 1) + opensC p - closesC p ≠ 0 := by
        intro p q hpq
        have h3 := hcom ('[' :: p) q (by rw [hpq, List.cons_append])
        have e3 : opensC ('[' :: p) = opensC ['['] + opensC p := opensC_append ['['] p
        have e4 : closesC ('[' :: p) = closesC ['['] + closesC p := closesC_append ['['] p
        have e5 : opensC ['['] = 1 := rfl
        have e6 : closesC ['['] = 0 := rfl
        omega
      have tail := scanSkip u2 (d + 1) rest (cur ++ ['[']) acc hcom2
      rw [List.cons_append, splitArgs_open, tail]
      have e1 : opensC ('[' :: u2) = opensC ['['] + opensC u2 := opensC_append ['['] u2
      have e2 : closesC ('[' :: u2) = closesC ['['] + closesC u2 := closesC_append ['['] u2
      have e5 : opensC ['['] = 1 := rfl
      have e6 : closesC ['['] = 0 := rfl
      have e7 : d + 1 + opensC u2 - closesC u2 =
          d + opensC ('[' :: u2) - closesC ('[' :: u2) := by omega
      rw [e7, List.append_assoc, List.singleton_append]
    · by_cases h2 : c = ']'
      · subst h2
        have hcom2 : ∀ p q, u2 = p ++ ',' :: q → (d - 1) + opensC p - closesC p ≠ 0 := by
          intro p q hpq
          have h3 := hcom (']' :: p) q (by rw [hpq, List.cons_append])
          have e3 : opensC (']' :: p) = opensC [']'] + opensC p := opensC_append [']'] p
          have e4 : closesC (']' :: p) = closesC [']'] + closesC p := closesC_append [']'] p
          have e5 : opensC [']'] = 0 := rfl
          have e6 : closesC [']'] = 1 := rfl
          omega
        have tail := scanSkip u2 (d - 1) rest (cur ++ [']']) acc hcom2
        rw [List.cons_append, splitArgs_close, tail]
        have e1 : opensC (']' :: u2) = opensC [']'] + opensC u2 := opensC_append [']'] u2
        have e2 : closesC (']' :: u2) = closesC [']'] + closesC u2 := closesC_append [']'] u2
        have e5 : opensC [']'] = 0 := rfl
        have e6 : closesC [']'] = 1 := rfl
        have e7 : d - 1 + opensC u2 - closesC u2 =
            d + opensC (']' :: u2) - closesC (']' :: u2) := by omega
        rw [e7, List.append_assoc, List.singleton_append]
      · by_cases h3 : c = ','
        · subst h3
          have hd : d ≠ 0 := by
            have h4 := hcom [] u2 rfl
            have e5 : opensC ([] : List Char) = 0 := rfl
            have e6 : closesC ([] : List Char) = 0 := rfl
            omega
          have hcom2 : ∀ p q, u2 = p ++ ',' :: q → d + opensC p - closesC p ≠ 0 := by
            intro p q hpq
            have h4 := hcom (',' :: p) q (by rw [hpq, List.cons_append])
            have e3 : opensC (',' :: p) = opensC [','] + opensC p := opensC_append [','] p
            have e4 : closesC (',' :: p) = closesC [','] + closesC p := closesC_append [','] p
            have e5 : opensC [','] = 0 := rfl
            have e6 : closesC [','] = 0 := rfl
            omega
          have tail := scanSkip u2 d rest (cur ++ [',']) acc hcom2
          rw [List.cons_append, splitArgs_comma_ne _ _ _ _ hd, tail]
          have e1 : opensC (',' :: u2) = opensC [','] + opensC u2 := opensC_append [','] u2
          have e2 : closesC (',' :: u2) = closesC [','] + closesC u2 := closesC_append [','] u2
          have e5 : opensC [','] = 0 := rfl
          have e6 : closesC [','] = 0 := rfl
          have e7 : d + opensC u2 - closesC u2 =
              d + opensC (',' :: u2) - closesC (',' :: u2) := by omega
          rw [e7, List.append_assoc, List.singleton_append]
        · have hcom2 : ∀ p q, u2 = p ++ ',' :: q → d + opensC p - closesC p ≠ 0 := by
            intro p q hpq
            have h4 := hcom (c :: p) q (by rw [hpq, List.cons_append])
            have e3 : opensC (c :: p) = opensC [c] + opensC p := opensC_append [c] p
            have e4 : closesC (c :: p) = closesC [c] + closesC p := closesC_append [c] p
            have e5 : opensC [c] = 0 := by simp [opensC, h1]
            have e6 : closesC [c] = 0 := by simp [closesC, h2]
            omega
          have tail := scanSkip u2 d rest (cur ++ [c]) acc hcom2
          rw [List.cons_append, splitArgs_other c _ _ _ _ h1 h2 h3, tail]
          have e1 : opensC (c :: u2) = opensC [c] + opensC u2 := opensC_append [c] u2
          have e2 : closesC (c :: u2) = closesC [c] + closesC u2 := closesC_append [c] u2
          have e5 : opensC [c] = 0 := by simp [opensC, h1]
          have e6 : closesC [c] = 0 := by simp [closesC, h2]
          have e7 : d + opensC u2 - closesC u2 =
              d + opensC (c :: u2) - closesC (c :: u2) := by omega
          rw [e7, List.append_assoc, List.singleton_append]

theorem scanLast (v : List Char) (d : Int) (cur : List Char) (acc : List (List Char))
    (hcom : ∀ p q, v = p ++ ',' :: q → d + opensC p - closesC p ≠ 0)
    (hne : cur ++ v ≠ []) :
    splitArgs v d cur acc = acc ++ [pyStrip (cur ++ v)] := by
  have h1 := scanSkip v d [] cur acc hcom
  rw [List.append_nil] at h1
  have h2 : ¬((cur ++ v).isEmpty = true) := by
    rw [List.isEmpty_iff]
    exact hne
  rw [h1, splitArgs_nil, if_neg h2]

theorem scanJoin : ∀ (us : List (List Char)) (v cur : List Char)
    (acc : List (List Char)),
    (∀ u ∈ us, HeadIdent u ∧ Bal u ∧ ComDeep u ∧ LastNoSp u) →
    (HeadIdent v ∧ ComDeep v ∧ LastNoSp v) →
    (∀ c ∈ cur, isPySpace c = true) →
    splitArgs (tailJoin us v) 0 cur acc = acc ++ (us ++ [v])
  | [], v, cur, acc, _, hv, hcur => by
    obtain ⟨⟨c, t, hct, hc⟩, hcd, hls⟩ := hv
    have hcom : ∀ p q, v = p ++ ',' :: q → (0:Int) + opensC p - closesC p ≠ 0 := by
      intro p q hpq
      have := hcd p q hpq
      omega
    have hne : cur ++ v ≠ [] := by
      rw [hct]
      intro hx
      simpa using congrArg List.length hx
    show splitArgs v 0 cur acc = _
    rw [scanLast v 0 cur acc hcom hne]
    have hstrip : pyStrip (cur ++ v) = v := by
      rw [pyStrip_space_pre hcur]
      refine pyStrip_eq_self ?_ hls
      intro c2 hc2
      rw [hct] at hc2
      simp at hc2
      subst hc2
      exact (identChar_facts hc).2.2.2
    rw [hstrip]
    simp
  | u :: us2, v, cur, acc, hus, hv, hcur => by
    obtain ⟨⟨c, t, hct, hc⟩, hbal, hcd, hls⟩ := hus u (List.mem_cons_self u us2)
    have hcom : ∀ p q, u = p ++ ',' :: q → (0:Int) + opensC p - closesC p ≠ 0 := by
      intro p q hpq
      have := hcd p q hpq
      omega
    show splitArgs (u ++ ',' :: ' ' :: tailJoin us2 v) 0 cur acc = _
    rw [scanSkip u 0 (',' :: ' ' :: tailJoin us2 v) cur acc hcom]
    have hbal2 : (0:Int) + opensC u - closesC u = 0 := by
      unfold Bal at hbal
      omega
    rw [hbal2, splitArgs_comma0]
    have hstrip : pyStrip (cur ++ u) = u := by
      rw [pyStrip_space_pre hcur]
      refine pyStrip_eq_self ?_ hls
      intro c2 hc2
      rw [hct] at hc2
      simp at hc2
      subst hc2
      exact (identChar_facts hc).2.2.2
    rw [hstrip]
    have hsp : splitArgs (' ' :: tailJoin us2 v) 0 [] (acc ++ [u]) =
        splitArgs (tailJoin us2 v) 0 [' '] (acc ++ [u]) := by
      rw [splitArgs_other ' ' _ _ _ _ (by decide) (by decide) (by decide)]
      rfl
    rw [hsp]
    rw [scanJoin us2 v [' '] (acc ++ [u])
      (fun u2 hu2 => hus u2 (List.mem_cons_of_mem u hu2)) hv
      (by intro c2 hc2; simp at hc2; subst hc2; rfl)]
    simp

theorem prefOk_of_slackOk {l : List Char} (h : SlackOk 0 l) : PrefOk l := by
  intro p q hpq
  have := h p q hpq
  omega

theorem slackOk_of_prefOk {l : List Char} (h : PrefOk l) : SlackOk 0 l := by
  intro p q hpq
  have := h p q hpq
  omega

theorem comDeep_of_comSlack {l : List Char} (h : ComSlack 0 l) : ComDeep l := by
  intro p q hpq
  have := h p q hpq
  omega

theorem slackOk_congr {k k2 : Int} {l : List Char} (h : SlackOk k l) (he : k = k2) :
    SlackOk k2 l := he ▸ h

theorem comSlack_congr {k k2 : Int} {l : List Char} (h : ComSlack k l) (he : k = k2) :
    ComSlack k2 l := he ▸ h

theorem closesC_eq_zero {l : List Char} (h : ∀ c ∈ l, c ≠ ']') : closesC l = 0 := by
  induction l with
  | nil => rfl
  | cons c t ih =>
    have hc := h c (List.mem_cons_self c t)
    have ht := ih (fun d hd => h d (List.mem_cons_of_mem c hd))
    simp [closesC, hc, ht]

theorem opensC_eq_zero {l : List Char} (h : ∀ c ∈ l, c ≠ '[') : opensC l = 0 := by
  induction l with
  | nil => rfl
  | cons c t ih =>
    have hc := h c (List.mem_cons_self c t)
    have ht := ih (fun d hd => h d (List.mem_cons_of_mem c hd))
    simp [opensC, hc, ht]

theorem slackOk_of_no_close {k : Int} {l : List Char} (hk : 0 ≤ k)
    (h : ∀ c ∈ l, c ≠ ']') : SlackOk k l := by
  intro p q hpq
  have h1 : closesC p = 0 :=
    closesC_eq_zero (fun c hc => h c (by rw [hpq]; exact List.mem_append_left q hc))
  have h2 := opensC_nonneg p
  omega

theorem slackOk_close_sing : SlackOk 1 [']'] := by
  intro p q hpq
  cases p with
  | nil => decide
  | cons c p2 =>
    rw [List.cons_append] at hpq
    injection hpq with hA hB
    obtain ⟨h3, h4⟩ := List.append_eq_nil.mp hB.symm
    subst hA
    subst h3
    decide

theorem ident_no_comma {l : List Char} (h : ∀ c ∈ l, identChar c = true) : ',' ∉ l := by
  intro hmem
  exact (identChar_facts (h ',' hmem)).2.2.1 rfl

theorem UF_of_ident {l : List Char} (h : identOk l = true) : UF l := by
  obtain ⟨hne, hall⟩ := identOk_facts h
  obtain ⟨c, t, hct⟩ : ∃ c t, l = c :: t := by
    cases l with
    | nil => exact absurd rfl hne
    | cons c t => exact ⟨c, t, rfl⟩
  have hlast : ∃ cl, l.getLast? = some cl ∧ identChar cl = true :=
    ⟨l.getLast hne, List.getLast?_eq_getLast l hne, hall _ (List.getLast_mem hne)⟩
  refine ⟨⟨c, t, hct, hall c (by rw [hct]; exact List.mem_cons_self c t)⟩, ?_, ?_, ?_, ?_, ?_⟩
  · unfold Bal
    rw [opensC_zero_of_ident hall, closesC_zero_of_ident hall]
  · exact prefOk_of_slackOk (slackOk_of_ident le_rfl hall)
  · intro p q hpq
    exfalso
    refine ident_no_comma hall ?_
    rw [hpq]
    exact List.mem_append_right p (List.mem_cons_self ..)
  · have hself : rstripBr l = l := by
      refine rstripBr_eq_self ?_
      intro c2 hc2
      obtain ⟨cl, hcl, hclid⟩ := hlast
      rw [hcl] at hc2
      injection hc2 with h2
      rw [← h2]
      exact (identChar_facts hclid).2.1
    rw [hself]
    exact hlast
  · intro c2 hc2
    obtain ⟨cl, hcl, hclid⟩ := hlast
    rw [hcl] at hc2
    injection hc2 with h2
    rw [← h2]
    exact (identChar_facts hclid).2.2.2

theorem commaJoin_UF : ∀ (parts : List (List Char)), parts ≠ [] →
    (∀ u ∈ parts, UF u) →
    HeadIdent (commaJoin parts) ∧ Bal (commaJoin parts) ∧
      SlackOk 0 (commaJoin parts) ∧ LastIdent (rstripBr (commaJoin parts))
  | [], h, _ => absurd rfl h
  | [x], _, hp => by
    obtain ⟨hh, hb, hpk, _, hli, _⟩ := hp x (List.mem_cons_self ..)
    exact ⟨hh, hb, slackOk_of_prefOk hpk, hli⟩
  | x :: y :: rest, _, hp => by
    obtain ⟨⟨c, t, hct, hc⟩, hbx, hpx, _, hlix, _⟩ := hp x (List.mem_cons_self ..)
    obtain ⟨hhT, hbT, hsT, hliT⟩ := commaJoin_UF (y :: rest) (List.cons_ne_nil y rest)
      (fun u hu => hp u (List.mem_cons_of_mem x hu))
    have hEq : commaJoin (x :: y :: rest) =
        x ++ (',' :: ' ' :: commaJoin (y :: rest)) := by
      have h0 : joinSep (',' :: ' ' :: []) (x :: y :: rest) =
          x ++ (',' :: ' ' :: []) ++ joinSep (',' :: ' ' :: []) (y :: rest) := by
        rw [joinSep]
        intro hx
        exact List.cons_ne_nil y rest hx
      rw [List.append_assoc] at h0
      exact h0
    unfold Bal at hbx hbT
    have hOsep : opensC (',' :: ' ' :: commaJoin (y :: rest)) = opensC (commaJoin (y :: rest)) := by
      have := opensC_append (',' :: ' ' :: []) (commaJoin (y :: rest))
      have e0 : opensC (',' :: ' ' :: []) = 0 := rfl
      calc opensC (',' :: ' ' :: commaJoin (y :: rest))
          = opensC ((',' :: ' ' :: []) ++ commaJoin (y :: rest)) := rfl
      _ = opensC (commaJoin (y :: rest)) := by omega
    have hCsep : closesC (',' :: ' ' :: commaJoin (y :: rest)) = closesC (commaJoin (y :: rest)) := by
      have := closesC_append (',' :: ' ' :: []) (commaJoin (y :: rest))
      have e0 : closesC (',' :: ' ' :: []) = 0 := rfl
      calc closesC (',' :: ' ' :: commaJoin (y :: rest))
          = closesC ((',' :: ' ' :: []) ++ commaJoin (y :: rest)) := rfl
      _ = closesC (commaJoin (y :: rest)) := by omega
    refine ⟨?_, ?_, ?_, ?_⟩
    · refine ⟨c, t ++ (',' :: ' ' :: commaJoin (y :: rest)), ?_, hc⟩
      rw [hEq, hct]
      rfl
    · unfold Bal
      rw [hEq, opensC_append, closesC_append, hOsep, hCsep]
      omega
    · rw [hEq]
      refine slackOk_append (slackOk_of_prefOk hpx) ?_
      have hTail : SlackOk 0 (',' :: ' ' :: commaJoin (y :: rest)) := by
        have h1 : SlackOk 0 ((',' :: ' ' :: []) ++ commaJoin (y :: rest)) := by
          refine slackOk_append (slackOk_of_no_close le_rfl (by decide)) ?_
          refine slackOk_congr hsT ?_
          have e0 : opensC (',' :: ' ' :: []) = 0 := rfl
          have e1 : closesC (',' :: ' ' :: []) = 0 := rfl
          omega
        exact h1
      refine slackOk_congr hTail ?_
      omega
    · have hneT : rstripBr (commaJoin (y :: rest)) ≠ [] := lastIdent_ne_nil hliT
      have hEq2 : x ++ (',' :: ' ' :: commaJoin (y :: rest)) =
          (x ++ (',' :: ' ' :: [])) ++ commaJoin (y :: rest) := by
        rw [List.append_assoc]
        rfl
      rw [hEq, hEq2, rstripBr_append_left hneT]
      obtain ⟨cl, hcl, hclid⟩ := hliT
      exact ⟨cl, by rw [List.getLast?_append_of_ne_nil _ hneT, hcl], hclid⟩

theorem UF_bracketed {b inner : List Char} (hb : identOk b = true)
    (h1 : HeadIdent inner) (h2 : Bal inner) (h3 : SlackOk 0 inner)
    (h4 : LastIdent (rstripBr inner)) :
    UF (b ++ '[' :: (inner ++ [']'])) := by
  obtain ⟨hbne, hball⟩ := identOk_facts hb
  obtain ⟨cb, tb, hcb⟩ : ∃ c t, b = c :: t := by
    cases b with
    | nil => exact absurd rfl hbne
    | cons c t => exact ⟨c, t, rfl⟩
  have hw : b ++ '[' :: (inner ++ [']']) = ((b ++ ['[']) ++ inner) ++ [']'] := by
    simp
  have hOb : opensC b = 0 := opensC_zero_of_ident hball
  have hCb : closesC b = 0 := closesC_zero_of_ident hball
  have eO1 : opensC (b ++ ['[']) = 1 := by
    rw [opensC_append]
    have e0 : opensC ['['] = 1 := rfl
    omega
  have eC1 : closesC (b ++ ['[']) = 0 := by
    rw [closesC_append]
    have e0 : closesC ['['] = 0 := rfl
    omega
  have eO2 : opensC ((b ++ ['[']) ++ inner) = 1 + opensC inner := by
    rw [opensC_append]
    omega
  have eC2 : closesC ((b ++ ['[']) ++ inner) = closesC inner := by
    rw [closesC_append]
    omega
  unfold Bal at h2
  refine ⟨?_, ?_, ?_, ?_, ?_, ?_⟩
  · refine ⟨cb, tb ++ '[' :: (inner ++ [']']), ?_,
      hball cb (by rw [hcb]; exact List.mem_cons_self ..)⟩
    rw [hcb]
    rfl
  · unfold Bal
    rw [hw, opensC_append, closesC_append]
    have e0 : opensC [']'] = 0 := rfl
    have e1 : closesC [']'] = 1 := rfl
    omega
  · rw [hw]
    refine prefOk_of_slackOk ?_
    have s1 : SlackOk 0 b := slackOk_of_ident le_rfl hball
    have he2 : (0:Int) = 0 + opensC b - closesC b := by omega
    have s2 : SlackOk 0 (b ++ ['[']) :=
      slackOk_append s1 (slackOk_congr (slackOk_of_no_close le_rfl (by decide)) he2)
    have sIn : SlackOk 1 inner := slackOk_mono zero_le_one h3
    have he3 : (1:Int) = 0 + opensC (b ++ ['[']) - closesC (b ++ ['[']) := by omega
    have s3 : SlackOk 0 ((b ++ ['[']) ++ inner) :=
      slackOk_append s2 (slackOk_congr sIn he3)
    have he4 : (1:Int) = 0 + opensC ((b ++ ['[']) ++ inner) -
        closesC ((b ++ ['[']) ++ inner) := by omega
    exact slackOk_append s3 (slackOk_congr slackOk_close_sing he4)
  · rw [hw]
    refine comDeep_of_comSlack ?_
    have c1 : ComSlack 0 b := comSlack_of_noComma (ident_no_comma hball)
    have hf2 : (0:Int) = 0 + opensC b - closesC b := by omega
    have c2 : ComSlack 0 (b ++ ['[']) :=
      comSlack_append c1 (comSlack_congr (comSlack_of_noComma (by decide)) hf2)
    have cIn : ComSlack (0 + 1) inner := comSlack_of_slackOk h3
    have hf3 : (0:Int) + 1 = 0 + opensC (b ++ ['[']) - closesC (b ++ ['[']) := by omega
    have c3 : ComSlack 0 ((b ++ ['[']) ++ inner) :=
      comSlack_append c2 (comSlack_congr cIn hf3)
    have hf4 : (1:Int) = 0 + opensC ((b ++ ['[']) ++ inner) -
        closesC ((b ++ ['[']) ++ inner) := by omega
    exact comSlack_append c3 (comSlack_congr (comSlack_congr (comSlack_of_noComma (by decide)) rfl) hf4)
  · have hneI : rstripBr inner ≠ [] := lastIdent_ne_nil h4
    rw [hw, rstripBr_append_br, rstripBr_append_left hneI]
    obtain ⟨cl, hcl, hclid⟩ := h4
    exact ⟨cl, by rw [List.getLast?_append_of_ne_nil _ hneI, hcl], hclid⟩
  · intro c2 hc2
    rw [hw, List.getLast?_concat] at hc2
    injection hc2 with h5
    rw [← h5]
    rfl

theorem unparseL_eq_map : ∀ es : List PyExpr, unparseL es = es.map unparseE
  | [] => rfl
  | e :: es => by
    show unparseE e :: unparseL es = unparseE e :: es.map unparseE
    rw [unparseL_eq_map es]

theorem wfL_mem : ∀ {es : List PyExpr}, wfL es = true → ∀ e ∈ es, wfE e = true
  | [], _, e, he => absurd he (by simp)
  | a :: as, h, e, he => by
    have h2 : wfE a = true ∧ wfL as = true := by
      have h3 : (wfE a && wfL as) = true := h
      simpa using h3
    rcases List.mem_cons.mp he with rfl | he2
    · exact h2.1
    · exact wfL_mem h2.2 e he2

theorem sizeOf_elts_lt {b : List Char} {es : List PyExpr} {a : PyExpr} (h : a ∈ es) :
    sizeOf a < sizeOf (PyExpr.subTuple b es) := by
  have h1 := List.sizeOf_lt_of_mem h
  simp [PyExpr.subTuple.sizeOf_spec]
  omega

theorem sizeOf_slice_lt {b : List Char} {a : PyExpr} :
    sizeOf a < sizeOf (PyExpr.subSingle b a) := by
  simp [PyExpr.subSingle.sizeOf_spec]

theorem unparse_UF : ∀ (n : Nat) (e : PyExpr), sizeOf e ≤ n → wfE e = true →
    UF (unparseE e) := by
  intro n
  induction n with
  | zero =>
    intro e hsz _
    exfalso
    cases e <;> simp at hsz
  | succ n ih =>
    intro e hsz hwf
    match e with
    | .name id => exact UF_of_ident (by simpa [wfE] using hwf)
    | .const c => simp [wfE] at hwf
    | .subSingle b a =>
      simp only [wfE, Bool.and_eq_true] at hwf
      obtain ⟨hb, ha⟩ := hwf
      have hszA : sizeOf a ≤ n := by
        have h2 : sizeOf a < sizeOf (PyExpr.subSingle b a) := sizeOf_slice_lt
        have h3 : sizeOf (PyExpr.subSingle b a) ≤ n + 1 := hsz
        omega
      obtain ⟨hh, hbal, hpk, _, hli, _⟩ := ih a hszA ha
      exact UF_bracketed hb hh hbal (slackOk_of_prefOk hpk) hli
    | .subTuple b es =>
      simp only [wfE, Bool.and_eq_true, decide_eq_true_eq] at hwf
      obtain ⟨⟨hb, hlen⟩, hes⟩ := hwf
      have hne : es ≠ [] := by
        intro h
        subst h
        simp at hlen
      have hUFs : ∀ u ∈ unparseL es, UF u := by
        rw [unparseL_eq_map]
        intro u hu
        rw [List.mem_map] at hu
        obtain ⟨a, haes, rfl⟩ := hu
        have hszA : sizeOf a ≤ n := by
          have h2 := @sizeOf_elts_lt b es a haes
          have h3 : sizeOf (PyExpr.subTuple b es) ≤ n + 1 := hsz
          omega
        exact ih a hszA (wfL_mem hes a haes)
      have hpne : unparseL es ≠ [] := by
        rw [unparseL_eq_map]
        simpa using hne
      obtain ⟨jh, jb, js, jli⟩ := commaJoin_UF (unparseL es) hpne hUFs
      exact UF_bracketed hb jh jb js jli

theorem splitArgs_seg_length : ∀ (l : List Char) (d : Int) (cur : List Char)
    (acc : List (List Char)) (seg : List Char), seg ∈ splitArgs l d cur acc →
    seg ∈ acc ∨ seg.length ≤ cur.length + l.length
  | [], _, cur, acc, seg, h => by
    rw [splitArgs_nil] at h
    split at h
    · exact Or.inl h
    · rcases List.mem_append.mp h with h1 | h2
      · exact Or.inl h1
      · right
        have h3 : seg = pyStrip cur := by simpa using h2
        rw [h3]
        have h4 := pyStrip_length_le cur
        simp
        omega
  | c :: rest, d, cur, acc, seg, h => by
    by_cases h1 : c = '['
    · subst h1
      rw [splitArgs_open] at h
      rcases splitArgs_seg_length rest (d + 1) (cur ++ ['[']) acc seg h with h2 | h2
      · exact Or.inl h2
      · right
        simp [List.length_append] at h2 ⊢
        omega
    · by_cases h2 : c = ']'
      · subst h2
        rw [splitArgs_close] at h
        rcases splitArgs_seg_length rest (d - 1) (cur ++ [']']) acc seg h with h3 | h3
        · exact Or.inl h3
        · right
          simp [List.length_append] at h3 ⊢
          omega
      · by_cases h3 : c = ','
        · subst h3
          by_cases h4 : d = 0
          · subst h4
            rw [splitArgs_comma0] at h
            rcases splitArgs_seg_length rest 0 [] (acc ++ [pyStrip cur]) seg h with h5 | h5
            · rcases List.mem_append.mp h5 with h6 | h6
              · exact Or.inl h6
              · right
                have h7 : seg = pyStrip cur := by simpa using h6
                rw [h7]
                have h8 := pyStrip_length_le cur
                simp
                omega
            · right
              simp at h5 ⊢
              omega
          · rw [splitArgs_comma_ne _ _ _ _ h4] at h
            rcases splitArgs_seg_length rest d (cur ++ [',']) acc seg h with h5 | h5
            · exact Or.inl h5
            · right
              simp [List.length_append] at h5 ⊢
              omega
        · rw [splitArgs_other c _ _ _ _ h1 h2 h3] at h
          rcases splitArgs_seg_length rest d (cur ++ [c]) acc seg h with h5 | h5
          · exact Or.inl h5
          · right
            simp [List.length_append] at h5 ⊢
            omega

theorem splitFirstBr_snd_length : ∀ (s : List Char), '[' ∈ s →
    (splitFirstBr s).2.length < s.length
  | [], h => absurd h (by simp)
  | c :: rest, h => by
    by_cases hc : c = '['
    · subst hc
      have e : splitFirstBr ('[' :: rest) = ([], rest) := by simp [splitFirstBr]
      rw [e]
      simp
    · have h2 : '[' ∈ rest := by
        rcases List.mem_cons.mp h with h3 | h3
        · exact absurd h3.symm hc
        · exact h3
      have e : (splitFirstBr (c :: rest)).2 = (splitFirstBr rest).2 := by
        simp [splitFirstBr, hc]
      rw [e]
      have h4 := splitFirstBr_snd_length rest h2
      simp
      omega

theorem mapMO_congr {α β : Type} {f g : α → Option β} :
    ∀ {l : List α}, (∀ a ∈ l, f a = g a) → mapMO f l = mapMO g l
  | [], _ => rfl
  | a :: as, h => by
    unfold mapMO
    rw [h a (List.mem_cons_self ..),
      mapMO_congr (fun x hx => h x (List.mem_cons_of_mem a hx))]

theorem parseFuel_irrel : ∀ (n : Nat) (s : List Char), s.length ≤ n →
    ∀ f1 f2 : Nat, s.length < f1 → s.length < f2 → parseFuel f1 s = parseFuel f2 s := by
  intro n
  induction n with
  | zero =>
    intro s hs f1 f2 h1 h2
    have hs0 : s = [] := by
      cases s with
      | nil => rfl
      | cons c t => simp at hs
    subst hs0
    obtain ⟨g1, rfl⟩ : ∃ g, f1 = g + 1 := ⟨f1 - 1, by omega⟩
    obtain ⟨g2, rfl⟩ : ∃ g, f2 = g + 1 := ⟨f2 - 1, by omega⟩
    rfl
  | succ n ih =>
    intro s hs f1 f2 h1 h2
    obtain ⟨g1, rfl⟩ : ∃ g, f1 = g + 1 := ⟨f1 - 1, by omega⟩
    obtain ⟨g2, rfl⟩ : ∃ g, f2 = g + 1 := ⟨f2 - 1, by omega⟩
    have hbound : ∀ seg ∈ splitArgs (rstripBr (splitFirstBr s).2) 0 [] [],
        ('[' ∈ s) → seg.length ≤ n ∧ seg.length < g1 ∧ seg.length < g2 := by
      intro seg hseg hbr
      rcases splitArgs_seg_length _ _ _ _ seg hseg with h3 | h3
      · simp at h3
      · have h4 := rstripBr_length_le (splitFirstBr s).2
        have h5 := splitFirstBr_snd_length s hbr
        simp at h3
        omega
    by_cases hbr : '[' ∈ s
    · show parseFuel (g1 + 1) s = parseFuel (g2 + 1) s
      simp only [parseFuel, hbr, if_true]
      cases harg : splitArgs (rstripBr (splitFirstBr s).2) 0 [] [] with
      | nil => rfl
      | cons a tail =>
        cases tail with
        | nil =>
          have hmem : a ∈ splitArgs (rstripBr (splitFirstBr s).2) 0 [] [] := by
            rw [harg]
            exact List.mem_cons_self ..
          obtain ⟨hA, hB, hC⟩ := hbound a hmem hbr
          show Option.map (fun e => PyExpr.subSingle (pyStrip (splitFirstBr s).1) e)
              (parseFuel g1 a) =
            Option.map (fun e => PyExpr.subSingle (pyStrip (splitFirstBr s).1) e)
              (parseFuel g2 a)
          rw [ih a hA g1 g2 hB hC]
        | cons a2 tail2 =>
          have hcg : mapMO (parseFuel g1) (a :: a2 :: tail2) =
              mapMO (parseFuel g2) (a :: a2 :: tail2) := by
            refine mapMO_congr ?_
            intro x hx
            have hmem : x ∈ splitArgs (rstripBr (splitFirstBr s).2) 0 [] [] := by
              rw [harg]
              exact hx
            obtain ⟨hA, hB, hC⟩ := hbound x hmem hbr
            exact ih x hA g1 g2 hB hC
          show Option.map (fun es => PyExpr.subTuple (pyStrip (splitFirstBr s).1) es)
              (mapMO (parseFuel g1) (a :: a2 :: tail2)) =
            Option.map (fun es => PyExpr.subTuple (pyStrip (splitFirstBr s).1) es)
              (mapMO (parseFuel g2) (a :: a2 :: tail2))
          rw [hcg]
    · show parseFuel (g1 + 1) s = parseFuel (g2 + 1) s
      simp only [parseFuel, hbr, if_false]

theorem parseFuel_eq_createTypeAnn {f : Nat} {s : List Char} (h : s.length < f) :
    parseFuel f s = createTypeAnn s := by
  unfold createTypeAnn
  exact parseFuel_irrel s.length s le_rfl f (s.length + 1) h (by omega)

theorem mem_of_getLast_some {l : List Char} {c : Char} (h : l.getLast? = some c) :
    c ∈ l := by
  obtain ⟨hne, heq⟩ := List.mem_getLast?_eq_getLast h
  rw [heq]
  exact List.getLast_mem hne

theorem parse_no_bracket {s : List Char} (h : '[' ∉ s) :
    createTypeAnn s = some (.name (pyStrip s)) := by
  unfold createTypeAnn parseFuel
  rw [if_neg h]

theorem pyStrip_ident {l : List Char} (h : ∀ c ∈ l, identChar c = true) :
    pyStrip l = l := by
  refine pyStrip_eq_self ?_ ?_ <;> intro c2 hc2
  · exact (identChar_facts (h c2 (List.mem_of_mem_head? hc2))).2.2.2
  · exact (identChar_facts (h c2 (mem_of_getLast_some hc2))).2.2.2

theorem comDeep_front {x y : List Char} (h : ComDeep (x ++ y)) : ComDeep x := by
  intro p q hpq
  refine h p (q ++ y) ?_
  rw [hpq]
  simp

theorem splitFirstBr_spec : ∀ (b R : List Char), (∀ c ∈ b, c ≠ '[') →
    splitFirstBr (b ++ '[' :: R) = (b, R)
  | [], R, _ => by simp [splitFirstBr]
  | c :: t, R, h => by
    have hc := h c (List.mem_cons_self ..)
    have ih := splitFirstBr_spec t R (fun d hd => h d (List.mem_cons_of_mem c hd))
    show splitFirstBr (c :: (t ++ '[' :: R)) = _
    simp [splitFirstBr, hc, ih]

theorem splitFirstBr_fst {b R : List Char} (h : ∀ c ∈ b, c ≠ '[') :
    (splitFirstBr (b ++ '[' :: R)).1 = b := by
  rw [splitFirstBr_spec b R h]

theorem splitFirstBr_snd {b R : List Char} (h : ∀ c ∈ b, c ≠ '[') :
    (splitFirstBr (b ++ '[' :: R)).2 = R := by
  rw [splitFirstBr_spec b R h]

theorem parseFuel_bracket_step (fuel : Nat) (s : List Char) (h : '[' ∈ s) :
    parseFuel (fuel + 1) s =
      (match splitArgs (rstripBr (splitFirstBr s).2) 0 [] [] with
       | [] => none
       | [a] => (parseFuel fuel a).map
           (fun e => PyExpr.subSingle (pyStrip (splitFirstBr s).1) e)
       | _ :: _ :: _ =>
           (mapMO (parseFuel fuel) (splitArgs (rstripBr (splitFirstBr s).2) 0 [] [])).map
             (fun es => PyExpr.subTuple (pyStrip (splitFirstBr s).1) es)) := by
  simp only [parseFuel, h, if_true]

theorem parse_args_single {b R v : List Char} (hb : identOk b = true)
    (hR : rstripBr R = v) (hv : splitArgs v 0 [] [] = [v])
    (hlen : v.length < (b ++ '[' :: R).length) :
    createTypeAnn (b ++ '[' :: R) =
      (createTypeAnn v).map (fun e => PyExpr.subSingle (pyStrip b) e) := by
  obtain ⟨hbne, hball⟩ := identOk_facts hb
  have hbnb : ∀ c ∈ b, c ≠ '[' := fun c hc => (identChar_facts (hball c hc)).1
  have hmem : '[' ∈ b ++ '[' :: R := List.mem_append_right b (List.mem_cons_self ..)
  unfold createTypeAnn
  rw [parseFuel_bracket_step _ _ hmem, splitFirstBr_fst hbnb, splitFirstBr_snd hbnb,
    hR, hv]
  show (parseFuel (b ++ '[' :: R).length v).map
      (fun e => PyExpr.subSingle (pyStrip b) e) = _
  rw [parseFuel_eq_createTypeAnn hlen]
  rfl

theorem parse_args_multi {b R v1 v2 : List Char} {vs : List (List Char)}
    (hb : identOk b = true)
    (hsp : splitArgs (rstripBr R) 0 [] [] = v1 :: v2 :: vs)
    (hlen : ∀ v ∈ v1 :: v2 :: vs, v.length < (b ++ '[' :: R).length) :
    createTypeAnn (b ++ '[' :: R) =
      (mapMO createTypeAnn (v1 :: v2 :: vs)).map
        (fun es => PyExpr.subTuple (pyStrip b) es) := by
  obtain ⟨hbne, hball⟩ := identOk_facts hb
  have hbnb : ∀ c ∈ b, c ≠ '[' := fun c hc => (identChar_facts (hball c hc)).1
  have hmem : '[' ∈ b ++ '[' :: R := List.mem_append_right b (List.mem_cons_self ..)
  unfold createTypeAnn
  rw [parseFuel_bracket_step _ _ hmem, splitFirstBr_fst hbnb, splitFirstBr_snd hbnb,
    hsp]
  show (mapMO (parseFuel (b ++ '[' :: R).length) (v1 :: v2 :: vs)).map
      (fun es => PyExpr.subTuple (pyStrip b) es) = _
  rw [mapMO_congr (fun x hx => parseFuel_eq_createTypeAnn (hlen x hx))]
  rfl

theorem commaJoin_eq_tailJoin : ∀ (xs : List (List Char)) (x : List Char),
    commaJoin (xs ++ [x]) = tailJoin xs x
  | [], x => rfl
  | y :: ys, x => by
    have h0 : joinSep (',' :: ' ' :: []) (y :: (ys ++ [x])) =
        y ++ (',' :: ' ' :: []) ++ joinSep (',' :: ' ' :: []) (ys ++ [x]) := by
      rw [joinSep]
      intro hx
      exact absurd hx (List.append_ne_nil_of_right_ne_nil ys (by simp))
    have ih := commaJoin_eq_tailJoin ys x
    show joinSep (',' :: ' ' :: []) (y :: (ys ++ [x])) = y ++ ',' :: ' ' :: tailJoin ys x
    rw [h0, List.append_assoc]
    show y ++ (',' :: ' ' :: commaJoin (ys ++ [x])) = _
    rw [ih]

theorem tailJoin_ne_nil {v : List Char} (hv : v ≠ []) :
    ∀ us : List (List Char), tailJoin us v ≠ []
  | [] => hv
  | u :: us2 => by
    show u ++ ',' :: ' ' :: tailJoin us2 v ≠ []
    intro h
    have := congrArg List.length h
    simp [List.length_append] at this

theorem rstripBr_tailJoin : ∀ (us : List (List Char)) (v : List Char),
    rstripBr v ≠ [] → rstripBr (tailJoin us v) = tailJoin us (rstripBr v)
  | [], v, _ => rfl
  | u :: us2, v, h => by
    have hT : rstripBr (tailJoin us2 v) = tailJoin us2 (rstripBr v) :=
      rstripBr_tailJoin us2 v h
    have hvne : v ≠ [] := by
      intro hx
      apply h
      rw [hx]
      rfl
    have hTne : rstripBr (tailJoin us2 v) ≠ [] := by
      rw [hT]
      exact tailJoin_ne_nil (by
        intro hx
        exact h hx) us2
    have hE : u ++ ',' :: ' ' :: tailJoin us2 v =
        (u ++ [',', ' ']) ++ tailJoin us2 v := by simp
    show rstripBr (u ++ ',' :: ' ' :: tailJoin us2 v) = u ++ ',' :: ' ' :: tailJoin us2 (rstripBr v)
    rw [hE, rstripBr_append_left hTne, hT, List.append_assoc]
    rfl

theorem tailJoin_length : ∀ (us : List (List Char)) (v : List Char),
    (∀ u ∈ us, u.length ≤ (tailJoin us v).length) ∧
      v.length ≤ (tailJoin us v).length
  | [], v => ⟨by simp, le_rfl⟩
  | u :: us2, v => by
    obtain ⟨ih1, ih2⟩ := tailJoin_length us2 v
    constructor
    · intro u2 hu2
      rcases List.mem_cons.mp hu2 with rfl | h2
      · show u2.length ≤ (u2 ++ ',' :: ' ' :: tailJoin us2 v).length
        simp [List.length_append]
      · have h3 := ih1 u2 h2
        show u2.length ≤ (u ++ ',' :: ' ' :: tailJoin us2 v).length
        simp [List.length_append]
        omega
    · have h3 := ih2
      show v.length ≤ (u ++ ',' :: ' ' :: tailJoin us2 v).length
      simp [List.length_append]
      omega

theorem rstripBr_unparse_facts {a : PyExpr} (hwf : wfE a = true) :
    HeadIdent (rstripBr (unparseE a)) ∧ ComDeep (rstripBr (unparseE a)) ∧
      LastNoSp (rstripBr (unparseE a)) ∧
      rstripBr (rstripBr (unparseE a)) = rstripBr (unparseE a) ∧
      rstripBr (unparseE a) ≠ [] := by
  obtain ⟨hh, _, _, hcd, hli, _⟩ := unparse_UF (sizeOf a) a le_rfl hwf
  refine ⟨?_, ?_, ?_, ?_, lastIdent_ne_nil hli⟩
  · obtain ⟨c, t, hct, hc⟩ := hh
    obtain ⟨t2, ht2⟩ := rstripBr_head hct (identChar_facts hc).2.1
    exact ⟨c, t2, ht2, hc⟩
  · obtain ⟨t, ht, _⟩ := rstripBr_decomp (unparseE a)
    rw [ht] at hcd
    exact comDeep_front hcd
  · intro c hc
    obtain ⟨cl, hcl, hclid⟩ := hli
    rw [hcl] at hc
    injection hc with h2
    rw [← h2]
    exact (identChar_facts hclid).2.2.2
  · refine rstripBr_eq_self ?_
    intro c hc
    obtain ⟨cl, hcl, hclid⟩ := hli
    rw [hcl] at hc
    injection hc with h2
    rw [← h2]
    exact (identChar_facts hclid).2.1

theorem roundTrip_aux : ∀ (n : Nat) (e : PyExpr), sizeOf e ≤ n → wfE e = true →
    createTypeAnn (rstripBr (unparseE e)) = some e ∧
      createTypeAnn (unparseE e) = some e := by
  intro n
  induction n with
  | zero =>
    intro e hsz _
    exfalso
    cases e <;> simp at hsz
  | succ n ih =>
    intro e hsz hwf
    match e with
    | .name id =>
      have hid : identOk id = true := by simpa [wfE] using hwf
      obtain ⟨hne, hall⟩ := identOk_facts hid
      have hnb : '[' ∉ id := fun hmem => (identChar_facts (hall _ hmem)).1 rfl
      have hmain : createTypeAnn id = some (.name id) := by
        rw [parse_no_bracket hnb, pyStrip_ident hall]
      have hrs : rstripBr id = id := by
        refine rstripBr_eq_self ?_
        intro c hc
        exact (identChar_facts (hall c (mem_of_getLast_some hc))).2.1
      constructor
      · show createTypeAnn (rstripBr id) = some (.name id)
        rw [hrs]
        exact hmain
      · exact hmain
    | .const c => simp [wfE] at hwf
    | .subSingle b a =>
      simp only [wfE, Bool.and_eq_true] at hwf
      obtain ⟨hb, ha⟩ := hwf
      have hszA : sizeOf a ≤ n := by
        have h2 : sizeOf a < sizeOf (PyExpr.subSingle b a) := sizeOf_slice_lt
        have h3 : sizeOf (PyExpr.subSingle b a) ≤ n + 1 := hsz
        omega
      obtain ⟨IH1, IH2⟩ := ih a hszA ha
      obtain ⟨hH2, hCd2, hLs2, hIdem, hne2⟩ := rstripBr_unparse_facts ha
      obtain ⟨hbne, hball⟩ := identOk_facts hb
      have hscan : splitArgs (rstripBr (unparseE a)) 0 [] [] =
          [rstripBr (unparseE a)] := by
        have h4 := scanJoin [] (rstripBr (unparseE a)) [] []
          (by intro u hu; simp at hu) ⟨hH2, hCd2, hLs2⟩ (by intro c hc; simp at hc)
        simpa [tailJoin] using h4
      have hps : pyStrip b = b := pyStrip_ident hball
      have goal2 : createTypeAnn (b ++ '[' :: (unparseE a ++ [']'])) =
          some (.subSingle b a) := by
        have hR : rstripBr (unparseE a ++ [']']) = rstripBr (unparseE a) :=
          rstripBr_append_br _
        have hlen : (rstripBr (unparseE a)).length <
            (b ++ '[' :: (unparseE a ++ [']'])).length := by
          have h5 := rstripBr_length_le (unparseE a)
          simp [List.length_append]
          omega
        rw [parse_args_single hb hR hscan hlen, IH1, hps]
        rfl
      constructor
      · show createTypeAnn (rstripBr (b ++ '[' :: (unparseE a ++ [']']))) = _
        have hRn : rstripBr (unparseE a ++ [']']) ≠ [] := by
          rw [rstripBr_append_br]
          exact hne2
        have hE2 : rstripBr (b ++ '[' :: (unparseE a ++ [']'])) =
            b ++ '[' :: rstripBr (unparseE a) := by
          have hE : b ++ '[' :: (unparseE a ++ [']']) =
              (b ++ ['[']) ++ (unparseE a ++ [']']) := by simp
          rw [hE, rstripBr_append_left hRn, rstripBr_append_br, List.append_assoc]
          rfl
        rw [hE2]
        have hlen : (rstripBr (unparseE a)).length <
            (b ++ '[' :: rstripBr (unparseE a)).length := by
          simp [List.length_append]
          omega
        rw [parse_args_single hb hIdem hscan hlen, IH1, hps]
        rfl
      · exact goal2
    | .subTuple b es =>
      simp only [wfE, Bool.and_eq_true, decide_eq_true_eq] at hwf
      obtain ⟨⟨hb, hlen2⟩, hes⟩ := hwf
      obtain ⟨hbne, hball⟩ := identOk_facts hb
      have hps : pyStrip b = b := pyStrip_ident hball
      have hesne : es ≠ [] := by
        intro h
        subst h
        simp at hlen2
      obtain ⟨init, last, hsplit⟩ : ∃ init last, es = init ++ [last] :=
        ⟨es.dropLast, es.getLast hesne, (List.dropLast_append_getLast hesne).symm⟩
      have hwfel : ∀ x ∈ es, wfE x = true := wfL_mem hes
      have hszel : ∀ x ∈ es, sizeOf x ≤ n := by
        intro x hx
        have h2 := @sizeOf_elts_lt b es x hx
        have h3 : sizeOf (PyExpr.subTuple b es) ≤ n + 1 := hsz
        omega
      have hIH : ∀ x ∈ es, createTypeAnn (rstripBr (unparseE x)) = some x ∧
          createTypeAnn (unparseE x) = some x :=
        fun x hx => ih x (hszel x hx) (hwfel x hx)
      have hUFel : ∀ x ∈ es, UF (unparseE x) := fun x hx =>
        unparse_UF (sizeOf x) x le_rfl (hwfel x hx)
      have hlast_mem : last ∈ es := by
        rw [hsplit]
        exact List.mem_append_right init (List.mem_cons_self ..)
      have hinit_mem : ∀ x ∈ init, x ∈ es := by
        intro x hx
        rw [hsplit]
        exact List.mem_append_left [last] hx
      obtain ⟨hHl, hCdl, hLsl, hIdeml, hnel⟩ :=
        rstripBr_unparse_facts (hwfel last hlast_mem)
      have hCJ : commaJoin (unparseL es) =
          tailJoin (init.map unparseE) (unparseE last) := by
        rw [hsplit, unparseL_eq_map, List.map_append]
        simp only [List.map_cons, List.map_nil]
        exact commaJoin_eq_tailJoin (init.map unparseE) (unparseE last)
      have husG : ∀ u ∈ init.map unparseE,
          HeadIdent u ∧ Bal u ∧ ComDeep u ∧ LastNoSp u := by
        intro u hu
        rw [List.mem_map] at hu
        obtain ⟨x, hx, rfl⟩ := hu
        obtain ⟨hh, hbal, _, hcd, _, hls⟩ := hUFel x (hinit_mem x hx)
        exact ⟨hh, hbal, hcd, hls⟩
      have hscanT : splitArgs (tailJoin (init.map unparseE)
            (rstripBr (unparseE last))) 0 [] [] =
          (init.map unparseE) ++ [rstripBr (unparseE last)] := by
        have h6 := scanJoin (init.map unparseE) (rstripBr (unparseE last)) [] []
          husG ⟨hHl, hCdl, hLsl⟩ (by intro c hc; simp at hc)
        simpa using h6
      have hRstrip : rstripBr (commaJoin (unparseL es)) =
          tailJoin (init.map unparseE) (rstripBr (unparseE last)) := by
        rw [hCJ, rstripBr_tailJoin _ _ hnel]
      have hinitne : init ≠ [] := by
        intro h
        rw [h] at hsplit
        rw [hsplit] at hlen2
        simp at hlen2
      obtain ⟨u0, us', hu0⟩ : ∃ u0 us', init.map unparseE = u0 :: us' := by
        cases hI : init.map unparseE with
        | nil =>
          rw [List.map_eq_nil] at hI
          exact absurd hI hinitne
        | cons u0 us' => exact ⟨u0, us', rfl⟩
      have hsegs : (init.map unparseE) ++ [rstripBr (unparseE last)] =
          u0 :: (us' ++ [rstripBr (unparseE last)]) := by
        rw [hu0]
        rfl
      obtain ⟨v2, vs', hv2⟩ : ∃ v2 vs',
          us' ++ [rstripBr (unparseE last)] = v2 :: vs' := by
        cases hJ : us' ++ [rstripBr (unparseE last)] with
        | nil => exact absurd hJ (List.append_ne_nil_of_right_ne_nil us' (by simp))
        | cons v2 vs' => exact ⟨v2, vs', rfl⟩
      have hmapres : mapMO createTypeAnn
          ((init.map unparseE) ++ [rstripBr (unparseE last)]) =
          some (init ++ [last]) := by
        refine mapMO_append_some ?_ ?_
        · exact mapMO_map_self (fun x hx => (hIH x (hinit_mem x hx)).2)
        · show mapMO createTypeAnn [rstripBr (unparseE last)] = some [last]
          simp [mapMO, (hIH last hlast_mem).1]
      have hmap2 : mapMO createTypeAnn (u0 :: v2 :: vs') = some (init ++ [last]) := by
        rw [show u0 :: v2 :: vs' =
          (init.map unparseE) ++ [rstripBr (unparseE last)] from by rw [hsegs, hv2]]
        exact hmapres
      have hTlen := tailJoin_length (init.map unparseE) (rstripBr (unparseE last))
      have hbound : ∀ v ∈ u0 :: v2 :: vs',
          v.length ≤ (tailJoin (init.map unparseE)
            (rstripBr (unparseE last))).length := by
        intro v hv
        have hvin : v ∈ (init.map unparseE) ++ [rstripBr (unparseE last)] := by
          rw [hsegs, hv2]
          exact hv
        rcases List.mem_append.mp hvin with h7 | h7
        · exact hTlen.1 v h7
        · have h8 : v = rstripBr (unparseE last) := by simpa using h7
          rw [h8]
          exact hTlen.2
      have goal2 : createTypeAnn (b ++ '[' :: (commaJoin (unparseL es) ++ [']'])) =
          some (.subTuple b es) := by
        have hsp2 : splitArgs (rstripBr (commaJoin (unparseL es) ++ [']'])) 0 [] [] =
            u0 :: v2 :: vs' := by
          rw [rstripBr_append_br, hRstrip, hscanT, hsegs, hv2]
        have hlenv : ∀ v ∈ u0 :: v2 :: vs',
            v.length < (b ++ '[' :: (commaJoin (unparseL es) ++ [']'])).length := by
          intro v hv
          have hb1 := hbound v hv
          have hb2 : (tailJoin (init.map unparseE)
              (rstripBr (unparseE last))).length ≤
              (commaJoin (unparseL es)).length := by
            rw [← hRstrip]
            exact rstripBr_length_le _
          simp [List.length_append]
          omega
        rw [parse_args_multi hb hsp2 hlenv, hmap2, hps, ← hsplit]
        rfl
      constructor
      · show createTypeAnn (rstripBr (b ++ '[' ::
          (commaJoin (unparseL es) ++ [']']))) = _
        have hRn : rstripBr (commaJoin (unparseL es) ++ [']']) ≠ [] := by
          rw [rstripBr_append_br, hRstrip]
          exact tailJoin_ne_nil hnel _
        have hE2 : rstripBr (b ++ '[' :: (commaJoin (unparseL es) ++ [']'])) =
            b ++ '[' :: tailJoin (init.map unparseE) (rstripBr (unparseE last)) := by
          have hE : b ++ '[' :: (commaJoin (unparseL es) ++ [']']) =
              (b ++ ['[']) ++ (commaJoin (unparseL es) ++ [']']) := by simp
          rw [hE, rstripBr_append_left hRn, rstripBr_append_br, hRstrip,
            List.append_assoc]
          rfl
        rw [hE2]
        have h8 : rstripBr (rstripBr (unparseE last)) ≠ [] := by
          rw [hIdeml]
          exact hnel
        have hIdemT : rstripBr (tailJoin (init.map unparseE)
            (rstripBr (unparseE last))) =
            tailJoin (init.map unparseE) (rstripBr (unparseE last)) := by
          rw [rstripBr_tailJoin _ _ h8, hIdeml]
        have hsp2 : splitArgs (rstripBr (tailJoin (init.map unparseE)
            (rstripBr (unparseE last)))) 0 [] [] = u0 :: v2 :: vs' := by
          rw [hIdemT, hscanT, hsegs, hv2]
        have hlenv : ∀ v ∈ u0 :: v2 :: vs',
            v.length < (b ++ '[' :: tailJoin (init.map unparseE)
              (rstripBr (unparseE last))).length := by
          intro v hv
          have hb1 := hbound v hv
          simp [List.length_append]
          omega
        rw [parse_args_multi hb hsp2 hlenv, hmap2, hps, ← hsplit]
        rfl
      · exact goal2

/-- Claim C2: round-trip.  For every well-formed type node (any identifier
bases, any ordered argument lists, any nesting depth including 0),
serializing the node to text (`unparseE`, the `ast.unparse` fragment) and
then parsing the result with `_create_type_annotation` yields a node
structurally equal to the original. -/
theorem c2_roundtrip (e : PyExpr) (h : wfE e = true) :
    createTypeAnn (unparseE e) = some e :=
  (roundTrip_aux (sizeOf e) e le_rfl h).2

/-- Witness for claim C2 at the depth-two node `Map[String, List[Int]]`. -/
theorem c2_witness :
    wfE exNode = true ∧ createTypeAnn (unparseE exNode) = some exNode :=
  ⟨rfl, c2_roundtrip exNode rfl⟩
